import Mathlib

/-!
Verification of the bit-packed word codec and the breadth-first word-ladder
search of `src/main.rs`.

A word is a non-empty string of lowercase letters packed into a 64-bit
unsigned integer, five bits per letter: field value 0 means "no letter",
values 1..26 encode letters a..z, field 0 (the least significant five bits)
holds the first letter.  The Rust source wraps the integer in `NonZeroU64`;
following the spec's own porting note (§9), the embedding uses a plain `Nat`
together with the invariant predicates `RepInv` and `WValid` below, and the
`NonZeroU64::new(..).unwrap()` assertion inside `Word::raw` becomes the
proof obligation that every operator output is non-zero (claim C10).

Unsigned 64-bit wrap-around is written explicitly as `% 2 ^ 64` exactly at
the places where the Rust `u64` arithmetic can exceed 64 bits for words of
up to 12 letters (the encoding capacity enforced by `Word::new`): the
`w <<= 5` inside `dupl_first` and the `w << 5` / `mask << (len * 5)` inside
`rotate`.  All other shifts stay below 2 ^ 64 for such words, so no
reduction is needed there.
-/

namespace Word

/-- Value of a lowercase letter: a ↦ 1 … z ↦ 26 (source: `(c as u8) - b'a' + 1`,
with `b'a' = 97`). -/
def charVal (c : Char) : Nat := c.toNat - 97 + 1

/-- The OR-accumulation loop of `Word::new`:
`w |= (((c as u8) - b'a' + 1) as u64) << (idx * 5)` over the enumerated
characters starting at index `idx`. -/
def build : List Char → Nat → Nat
  | [], _ => 0
  | c :: cs, idx => (charVal c <<< (5 * idx)) ||| build cs (idx + 1)

/-- `Word::new`: encode a string.  The source asserts non-emptiness,
ASCII-ness, length at most `u64::BITS / 5 = 12`, and that every character
lies in `a..=z`, panicking otherwise; the panics are modelled as `none`
(all of the source's panic conditions are subsumed by the three checks
below, since characters in `a..=z` are ASCII). -/
def new (s : List Char) : Option Nat :=
  if s.isEmpty then none
  else if 12 < s.length then none
  else if s.all (fun c => decide ('a' ≤ c) && decide (c ≤ 'z')) then some (build s 0)
  else none

/-- Bit length computed with explicit fuel so that it reduces inside the
kernel; `bitLen` enters with fuel 64, which is exact for every `w < 2 ^ 64`
(proved equal to `Nat.size` below). -/
def bitLenGo : Nat → Nat → Nat
  | 0, _ => 0
  | fuel + 1, w => if w = 0 then 0 else bitLenGo fuel (w / 2) + 1

/-- Bit length of a 64-bit value. -/
def bitLen (w : Nat) : Nat := bitLenGo 64 w

/-- `u64::leading_zeros` for `w < 2 ^ 64`: `64 - bit_length w`. -/
def leadingZeros (w : Nat) : Nat := 64 - bitLen w

/-- `Word::len`: `(u64::BITS - w.leading_zeros() + (5 - 1)) / 5`. -/
def len (w : Nat) : Nat := (64 - leadingZeros w + (5 - 1)) / 5

/-- The loop body of the `fmt::Debug` impl (the decoder): emit
`(w & 31) + b'a' - 1` and continue with `w >> 5` while `w != 0`.  The Rust
loop is a `while`; fuel 13 is exact for every `w < 2 ^ 64`, because after
13 shifts by 5 the remaining value `w >>> 65` is already 0. -/
def decodeGo : Nat → Nat → List Char
  | 0, _ => []
  | fuel + 1, w =>
    if w = 0 then []
    else Char.ofNat ((w &&& 31) + 97 - 1) :: decodeGo fuel (w >>> 5)

/-- Decode a word back to its lowercase string (the `fmt::Debug` impl). -/
def decode (w : Nat) : List Char := decodeGo 13 w

/-- `Word::dupl_first`: duplicate the first letter, refusing when the word
already has `len_limit` letters (the `self.len() >= len_limit` guard).
`w <<= 5` wraps at 64 bits. -/
def dupl_first (w : Nat) (len_limit : Nat) : Option Nat :=
  if len_limit ≤ Word.len w then none
  else some (((w <<< 5) % 2 ^ 64) ||| (w &&& 31))

/-- `Word::pop`: drop the first letter, refusing to produce the empty word. -/
def pop (w : Nat) : Option Nat :=
  if w >>> 5 = 0 then none else some (w >>> 5)

/-- Bitwise complement on 64 bits (`!x` on a `u64`, for `x < 2 ^ 64`). -/
def comp64 (x : Nat) : Nat := (2 ^ 64 - 1) ^^^ x

/-- `Word::rotate`: the two single-rotation neighbours, or `[none, none]`
for single-letter words. -/
def rotate (w : Nat) : List (Option Nat) :=
  let mask : Nat := 31
  let l := Word.len w
  if l = 1 then [none, none]
  else
    let last := (l - 1) * 5
    let start := w &&& mask
    let endv := (w &&& (mask <<< last)) >>> last
    let right := w >>> 5
    let left := ((w <<< 5) % 2 ^ 64) &&& comp64 ((mask <<< (l * 5)) % 2 ^ 64)
    [some (right ||| (start <<< last)), some (left ||| endv)]

/-- The `for i in 0..6` loop of `Word::shifts`, with `fuel` iterations
remaining and current index `i`: read field `i`, stop at a zero field, else
store the incremented letter in slot `i` and the decremented letter in slot
`i + 6` and continue.  `shifts` enters with fuel 6, matching `0..6`. -/
def shiftsGo (us : Nat) : Nat → Nat → List (Option Nat) → List (Option Nat)
  | 0, _, ret => ret
  | fuel + 1, i, ret =>
    let shift := i * 5
    let mask : Nat := 31 <<< shift
    let c := (us &&& mask) >>> shift
    if c = 0 then ret
    else
      let w := us &&& comp64 mask
      let up := if c + 1 = 27 then 1 else c + 1
      let down := if c - 1 = 0 then 26 else c - 1
      shiftsGo us fuel (i + 1)
        ((ret.set i (some (w ||| (up <<< shift)))).set (i + 6) (some (w ||| (down <<< shift))))

/-- `Word::shifts`: the 12-slot neighbour array, as a 12-element list. -/
def shifts (us : Nat) : List (Option Nat) :=
  shiftsGo us 6 0 (List.replicate 12 none)

end Word

/-- Little-endian base-32 packing of a list of letter values: the reference
denotation of the codec (letter 0 of the list lands in field 0). -/
def fromLetters : List Nat → Nat
  | [] => 0
  | v :: vs => v + 32 * fromLetters vs

/-- A well-formed letter list: every value names a letter. -/
abbrev GoodLetters (l : List Nat) : Prop := ∀ v ∈ l, 1 ≤ v ∧ v ≤ 26

/-- A valid `Word` value: the packing of 1 to 12 letters.  This is the set
of values produced by `Word::new` and closed over by the search (whose
length cap never exceeds 12). -/
def WValid (w : Nat) : Prop :=
  ∃ l : List Nat, GoodLetters l ∧ l ≠ [] ∧ l.length ≤ 12 ∧ w = fromLetters l

/-- Field `i` of a packed word (five bits starting at bit `5 * i`). -/
def fieldAt (w i : Nat) : Nat := (w >>> (5 * i)) % 32

/-- The representation invariants named by the spec: the encoded integer is
non-zero, every 5-bit field holds a value in 0..=26, and the occupied
fields form a contiguous run starting at field 0 (13 fields fit at least
partially into 64 bits). -/
def RepInv (w : Nat) : Prop :=
  w ≠ 0 ∧ (∀ i < 13, fieldAt w i ≤ 26) ∧
    (∀ i j : Nat, i ≤ j → j < 13 → fieldAt w j ≠ 0 → fieldAt w i ≠ 0)

/-! The search engine (`print_path` in the source).  The visited map is a
`HashMap<Word, Word>` from each discovered word to its BFS predecessor used
only through `entry` (insert-if-vacant), `contains_key` and `get`, so an
insertion-ordered association list with those exact operations is a
faithful embedding; the frontier is a `Vec<Word>`.  The `println!` progress
lines, timing, and the log file are I/O glue outside the returned result
(the logged line's data — the path length and the decoded path — is what
`print_path` is modelled as returning). -/

/-- Lookup in the visited map (`HashMap::get` / the vacancy check of
`HashMap::entry`): the value of the unique entry with key `k`, if any. -/
def mfind (m : List (Nat × Nat)) (k : Nat) : Option Nat :=
  (m.find? (fun e => e.1 == k)).map (fun e => e.2)

/-- The closure `appl` inside the expansion loop: for a produced neighbour
(`some word`), insert `(word ↦ k)` into the visited map and push `word`
onto the next frontier, but only if `word` is not already present. -/
def appl (k : Nat) (st : List (Nat × Nat) × List Nat) (op : Option Nat) :
    List (Nat × Nat) × List Nat :=
  match op with
  | none => st
  | some word =>
    match mfind st.1 word with
    | some _ => st
    | none => (st.1 ++ [(word, k)], st.2 ++ [word])

/-- The sixteen candidate neighbours of `k`, in the order the source feeds
them to `appl`: `dupl_first`, `pop`, the 12 `shifts` slots, the 2 `rotate`
slots. -/
def neighbors (len_limit k : Nat) : List (Option Nat) :=
  Word.dupl_first k len_limit :: Word.pop k :: (Word.shifts k ++ Word.rotate k)

/-- Expansion of one frontier word `k`: feed all sixteen candidate
neighbours through `appl`. -/
def expandFrom (len_limit : Nat) (st : List (Nat × Nat) × List Nat) (k : Nat) :
    List (Nat × Nat) × List Nat :=
  (neighbors len_limit k).foldl (appl k) st

/-- One iteration of the `for it in 1..32` loop body: clear `new_words`,
then expand every word of the old frontier in order. -/
def stepSearch (len_limit : Nat) (st : List (Nat × Nat) × List Nat) :
    List (Nat × Nat) × List Nat :=
  st.2.foldl (expandFrom len_limit) (st.1, [])

/-- The bounded search loop: up to `fuel` further iterations (the source
runs `it = 1..=31`), stopping after any iteration whose resulting visited
map contains the target, and returning the final visited map. -/
def searchLoop (len_limit target : Nat) : Nat → List (Nat × Nat) × List Nat → List (Nat × Nat)
  | 0, st => st.1
  | fuel + 1, st =>
    let st2 := stepSearch len_limit st
    if (mfind st2.1 target).isSome then st2.1
    else searchLoop len_limit target fuel st2

/-- The visited map produced by a full `print_path` run: seed
`{starter ↦ starter}`, frontier `[starter]`, then at most 31 expansion
iterations with the early exit on finding the target. -/
def searchMap (starter target len_limit : Nat) : List (Nat × Nat) :=
  searchLoop len_limit target 31 ([(starter, starter)], [starter])

/-- The pure (no early exit) iteration of the search, used to state
depth-indexed invariants: `iterateSearch lim s t` is the visited map and
frontier after exactly `t` expansion iterations. -/
def iterateSearch (len_limit starter : Nat) : Nat → List (Nat × Nat) × List Nat
  | 0 => ([(starter, starter)], [starter])
  | t + 1 => stepSearch len_limit (iterateSearch len_limit starter t)

/-- The reconstruction loop: `path.push(curr)` was already done by the
caller (`path` arrives holding it); then
`while let Some(word) = m.get(&curr) { path.push(*word); if *word == starter break; curr = *word; }`.
The Rust loop is unbounded; `fuel` bounds the model, and `reconstruct`
passes fuel 32, which is exact for every map the search can build, because
each predecessor lookup strictly decreases the first-insertion depth,
which is at most 31. -/
def reconstructGo (m : List (Nat × Nat)) (starter : Nat) : Nat → Nat → List Nat → List Nat
  | 0, _, path => path
  | fuel + 1, curr, path =>
    match mfind m curr with
    | none => path
    | some word =>
      if word = starter then path ++ [word]
      else reconstructGo m starter fuel word (path ++ [word])

/-- Path reconstruction: walk predecessors from `target`, then reverse. -/
def reconstruct (m : List (Nat × Nat)) (starter target fuel : Nat) : List Nat :=
  (reconstructGo m starter fuel target [target]).reverse

/-- `print_path`: run the search for `left → right` and return the data of
the logged result line: the element count of the reconstructed path and
the decoded path itself (`"{} {:?}", path.len(), path`).  `none` models the
panics of `Word::new` on invalid input. -/
def print_path (left right : List Char) : Option (Nat × List (List Char)) :=
  match Word.new left, Word.new right with
  | some starter, some target =>
    let len_limit := max left.length right.length
    let m := searchMap starter target len_limit
    let path := reconstruct m starter target 32
    some (path.length, path.map Word.decode)
  | _, _ => none

/-- Wrapped letter increment, as computed by the loop body of
`Word::shifts` (`up = c + 1; if up == 27 { up = 1 }`). -/
def wrapInc (c : Nat) : Nat := if c + 1 = 27 then 1 else c + 1

/-- Wrapped letter decrement, as computed by the loop body of
`Word::shifts` (`down = c - 1; if down == 0 { down = 26 }`). -/
def wrapDec (c : Nat) : Nat := if c - 1 = 0 then 26 else c - 1

/-- The word stored by `Word::shifts` in slot `i`: the input with field `i`
cleared and replaced by the wrapped increment of its letter (shown below to
equal the loop body's `w | (up << shift)`). -/
def upWord (us i : Nat) : Nat :=
  (us &&& Word.comp64 (31 <<< (i * 5))) ||| (wrapInc (fieldAt us i) <<< (i * 5))

/-- The word stored by `Word::shifts` in slot `i + 6`: field `i` replaced
by the wrapped decrement of its letter. -/
def downWord (us i : Nat) : Nat :=
  (us &&& Word.comp64 (31 <<< (i * 5))) ||| (wrapDec (fieldAt us i) <<< (i * 5))

/-- One edit step of the ladder graph: `b` is produced by feeding `a` to
one of the four operators (under length cap `len_limit`), i.e. `some b`
appears among the sixteen candidate neighbours. -/
abbrev EdgeStep (len_limit a b : Nat) : Prop := some b ∈ neighbors len_limit a

/-- `ReachN len_limit n a b`: some sequence of exactly `n` operator
applications transforms `a` into `b`. -/
inductive ReachN (len_limit : Nat) : Nat → Nat → Nat → Prop
  | refl (a : Nat) : ReachN len_limit 0 a a
  | step {n a b c : Nat} : ReachN len_limit n a b → EdgeStep len_limit b c →
      ReachN len_limit (n + 1) a c

-- Sanity checks mirroring the Rust unit tests (`lens`, `strs`, `dupl`,
-- `dupl_limit`, `poppity`, `shifty_edge`, `shifty_multiple`, `rotter`).
example : (Word.new ['a']).map Word.len = some 1 := by decide
example : (Word.new ['z']).map Word.len = some 1 := by decide
example : (Word.new ['a', 'a']).map Word.len = some 2 := by decide
example : (Word.new ['a', 'a', 'a', 'a', 'a', 'a', 'a']).map Word.len = some 7 := by decide
example : (Word.new ['a', 'b']).map Word.decode = some ['a', 'b'] := by decide
example : (Word.new ['a', 'b', 'c', 'd', 'e']).map Word.decode = some ['a', 'b', 'c', 'd', 'e'] := by
  decide
example : (Word.new ['a']).bind (fun w => Word.dupl_first w 8) = Word.new ['a', 'a'] := by decide
example : (Word.new ['a', 'b']).bind (fun w => Word.dupl_first w 8) = Word.new ['a', 'a', 'b'] := by
  decide
example : (Word.new ['a']).bind (fun w => Word.dupl_first w 1) = none := by decide
example : (Word.new ['a', 'b']).bind (fun w => Word.dupl_first w 2) = none := by decide
example : (Word.new ['a', 'b', 'c', 'd', 'e']).bind Word.pop = Word.new ['b', 'c', 'd', 'e'] := by
  decide
example : (Word.new ['a']).bind Word.pop = none := by decide
example : (Word.new ['a']).map Word.shifts =
    some [Word.new ['b'], none, none, none, none, none,
          Word.new ['z'], none, none, none, none, none] := by decide
example : (Word.new ['b', 'c']).map Word.shifts =
    some [Word.new ['c', 'c'], Word.new ['b', 'd'], none, none, none, none,
          Word.new ['a', 'c'], Word.new ['b', 'b'], none, none, none, none] := by decide
example : (Word.new ['a']).map Word.rotate = some [none, none] := by decide
example : (Word.new ['a', 'b']).map Word.rotate = some [Word.new ['b', 'a'], Word.new ['b', 'a']] := by
  decide
example : (Word.new ['a', 'b', 'c']).map Word.rotate =
    some [Word.new ['b', 'c', 'a'], Word.new ['c', 'a', 'b']] := by decide

-- Sanity checks of the search model on tiny instances.
example : print_path ['a'] ['b'] = some (2, [['a'], ['b']]) := by decide
example : print_path ['a'] ['c'] = some (3, [['a'], ['b'], ['c']]) := by decide
example : print_path ['a'] ['a'] = some (2, [['a'], ['a']]) := by decide

/-! Arithmetic toolbox: bridges between the source's bit operations and
plain base-32 arithmetic on letter lists. -/

theorem size_eq_size_div2_add_one {n : Nat} (h : n ≠ 0) :
    Nat.size n = Nat.size (n / 2) + 1 := by
  conv_lhs => rw [← Nat.bit_decomp n]
  rw [Nat.size_bit (by rw [Nat.bit_decomp]; exact h), Nat.div2_val]

theorem bitLenGo_eq_size : ∀ fuel w, w < 2 ^ fuel → Word.bitLenGo fuel w = Nat.size w := by
  intro fuel
  induction fuel with
  | zero =>
    intro w h
    have hw : w = 0 := by simpa using h
    subst hw
    simp [Word.bitLenGo]
  | succ n ih =>
    intro w h
    by_cases h0 : w = 0
    · subst h0; simp [Word.bitLenGo]
    · have hdiv : w / 2 < 2 ^ n := by
        apply Nat.div_lt_of_lt_mul
        calc w < 2 ^ (n + 1) := h
        _ = 2 ^ n * 2 := by rw [Nat.pow_succ]
        _ = 2 * 2 ^ n := by rw [Nat.mul_comm]
      rw [Word.bitLenGo, if_neg h0, ih (w / 2) hdiv, ← size_eq_size_div2_add_one h0]

theorem bitLen_eq_size {w : Nat} (h : w < 2 ^ 64) : Word.bitLen w = Nat.size w :=
  bitLenGo_eq_size 64 w h

theorem len_eq_size_formula {w : Nat} (h : w < 2 ^ 64) :
    Word.len w = (Nat.size w + 4) / 5 := by
  have hs : Nat.size w ≤ 64 := Nat.size_le.mpr h
  have hb : Word.bitLen w = Nat.size w := bitLen_eq_size h
  unfold Word.len Word.leadingZeros
  rw [hb]
  have h1 : 64 - (64 - Nat.size w) + (5 - 1) = Nat.size w + 4 := by omega
  rw [h1]

theorem fromLetters_lt {l : List Nat} (h : ∀ v ∈ l, v < 32) :
    fromLetters l < 32 ^ l.length := by
  induction l with
  | nil => simp [fromLetters]
  | cons v vs ih =>
    have hv : v < 32 := h v (List.mem_cons_self _ _)
    have hvs : fromLetters vs < 32 ^ vs.length := ih fun x hx => h x (List.mem_cons_of_mem _ hx)
    calc v + 32 * fromLetters vs < 32 * (fromLetters vs + 1) := by omega
    _ ≤ 32 * 32 ^ vs.length := by exact Nat.mul_le_mul_left 32 hvs
    _ = 32 ^ (vs.length + 1) := by rw [Nat.pow_succ, Nat.mul_comm]

theorem fromLetters_lt_two_pow {l : List Nat} (h : ∀ v ∈ l, v < 32) (hlen : l.length ≤ 12) :
    fromLetters l < 2 ^ 60 := by
  have h1 : fromLetters l < 32 ^ l.length := fromLetters_lt h
  have h2 : (32 : Nat) ^ l.length ≤ 32 ^ 12 := Nat.pow_le_pow_right (by omega) hlen
  have h3 : (32 : Nat) ^ 12 = 2 ^ 60 := by norm_num
  omega

theorem le_fromLetters {l : List Nat} (hg : ∀ v ∈ l, 1 ≤ v) (hne : l ≠ []) :
    32 ^ (l.length - 1) ≤ fromLetters l := by
  induction l with
  | nil => cases hne rfl
  | cons v vs ih =>
    cases vs with
    | nil =>
      have := hg v (List.mem_cons_self _ _)
      simpa [fromLetters] using this
    | cons u us =>
      have h2 : 32 ^ ((u :: us).length - 1) ≤ fromLetters (u :: us) :=
        ih (fun x hx => hg x (List.mem_cons_of_mem _ hx)) (by simp)
      have h3 : (v :: u :: us).length - 1 = ((u :: us).length - 1) + 1 := by simp
      rw [h3, Nat.pow_succ]
      calc 32 ^ ((u :: us).length - 1) * 32 ≤ fromLetters (u :: us) * 32 :=
        Nat.mul_le_mul_right 32 h2
      _ ≤ v + 32 * fromLetters (u :: us) := by omega

theorem size_fromLetters_le {l : List Nat} (h : ∀ v ∈ l, v < 32) :
    Nat.size (fromLetters l) ≤ 5 * l.length := by
  apply Nat.size_le.mpr
  have h1 : fromLetters l < 32 ^ l.length := fromLetters_lt h
  have h2 : (32 : Nat) ^ l.length = 2 ^ (5 * l.length) := by
    rw [Nat.pow_mul]
  omega

theorem lt_size_fromLetters {l : List Nat} (hg : ∀ v ∈ l, 1 ≤ v) (hne : l ≠ []) :
    5 * l.length - 4 ≤ Nat.size (fromLetters l) := by
  have h1 : 32 ^ (l.length - 1) ≤ fromLetters l := le_fromLetters hg hne
  have h2 : (2 : Nat) ^ (5 * (l.length - 1)) ≤ fromLetters l := by
    have : (2 : Nat) ^ (5 * (l.length - 1)) = 32 ^ (l.length - 1) := by
      rw [Nat.pow_mul]
    omega
  have h3 : 5 * (l.length - 1) < Nat.size (fromLetters l) := Nat.lt_size.mpr h2
  have h4 : l.length ≠ 0 := fun hl => hne (List.length_eq_zero.mp hl)
  omega

theorem len_fromLetters {l : List Nat} (hg : GoodLetters l) (hne : l ≠ [])
    (hlen : l.length ≤ 12) : Word.len (fromLetters l) = l.length := by
  have h32 : ∀ v ∈ l, v < 32 := fun v hv => by have := hg v hv; omega
  have h1 : ∀ v ∈ l, 1 ≤ v := fun v hv => (hg v hv).1
  have hlt : fromLetters l < 2 ^ 64 := by
    have := fromLetters_lt_two_pow h32 hlen
    have h60 : (2 : Nat) ^ 60 < 2 ^ 64 := by norm_num
    omega
  rw [len_eq_size_formula hlt]
  have hub := size_fromLetters_le h32
  have hlb := lt_size_fromLetters h1 hne
  have h4 : l.length ≠ 0 := fun hl => hne (List.length_eq_zero.mp hl)
  omega

theorem fromLetters_div_pow {l : List Nat} (h : ∀ v ∈ l, v < 32) (k : Nat) :
    fromLetters l / 32 ^ k = fromLetters (l.drop k) := by
  induction k generalizing l with
  | zero => simp
  | succ k ih =>
    cases l with
    | nil => simp [fromLetters]
    | cons v vs =>
      have hv : v < 32 := h v (List.mem_cons_self _ _)
      have hstep : fromLetters (v :: vs) / 32 = fromLetters vs := by
        show (v + 32 * fromLetters vs) / 32 = fromLetters vs
        rw [Nat.add_mul_div_left v _ (by omega), Nat.div_eq_of_lt hv, Nat.zero_add]
      rw [pow_succ', ← Nat.div_div_eq_div_mul, hstep, List.drop_succ_cons]
      exact ih fun x hx => h x (List.mem_cons_of_mem _ hx)

theorem fromLetters_mod_pow {l : List Nat} (h : ∀ v ∈ l, v < 32) (k : Nat) :
    fromLetters l % 32 ^ k = fromLetters (l.take k) := by
  induction k generalizing l with
  | zero => simp [fromLetters, Nat.mod_one]
  | succ k ih =>
    cases l with
    | nil => simp [fromLetters]
    | cons v vs =>
      have hv : v < 32 := h v (List.mem_cons_self _ _)
      have htail : ∀ x ∈ vs, x < 32 := fun x hx => h x (List.mem_cons_of_mem _ hx)
      have hmod : fromLetters vs % 32 ^ k = fromLetters (vs.take k) := ih htail
      have hlt : fromLetters (vs.take k) < 32 ^ k := by
        have h1 : fromLetters vs % 32 ^ k < 32 ^ k :=
          Nat.mod_lt _ (Nat.pos_pow_of_pos k (by omega))
        rw [hmod] at h1
        exact h1
      have hdecomp : fromLetters (v :: vs) =
          (v + 32 * fromLetters (vs.take k)) + 32 ^ (k + 1) * (fromLetters vs / 32 ^ k) := by
        show v + 32 * fromLetters vs = _
        conv_lhs => rw [← Nat.div_add_mod (fromLetters vs) (32 ^ k)]
        rw [hmod]
        ring
      rw [hdecomp, Nat.add_mul_mod_self_left, Nat.mod_eq_of_lt]
      · simp [List.take_succ_cons, fromLetters]
      · calc v + 32 * fromLetters (vs.take k) < 32 * (fromLetters (vs.take k) + 1) := by omega
        _ ≤ 32 * 32 ^ k := Nat.mul_le_mul_left 32 hlt
        _ = 32 ^ (k + 1) := by rw [Nat.pow_succ, Nat.mul_comm]

theorem fieldAt_fromLetters {l : List Nat} (h : ∀ v ∈ l, v < 32) (i : Nat) :
    fieldAt (fromLetters l) i = l.getD i 0 := by
  unfold fieldAt
  rw [Nat.shiftRight_eq_div_pow]
  have h1 : (2 : Nat) ^ (5 * i) = 32 ^ i := by rw [Nat.pow_mul]
  rw [h1, fromLetters_div_pow h i]
  by_cases hi : i < l.length
  · rw [List.drop_eq_getElem_cons hi]
    have hv : l[i] < 32 := h _ (List.getElem_mem hi)
    show (l[i] + 32 * fromLetters (l.drop (i + 1))) % 32 = _
    rw [Nat.add_mul_mod_self_left, Nat.mod_eq_of_lt hv]
    rw [List.getD_eq_getElem?_getD, List.getElem?_eq_getElem hi]
    rfl
  · rw [List.drop_eq_nil_iff.mpr (by omega)]
    rw [List.getD_eq_getElem?_getD, List.getElem?_eq_none (by omega)]
    rfl

theorem land31_eq_mod (x : Nat) : x &&& 31 = x % 32 := by
  have h := Nat.and_pow_two_sub_one_eq_mod x 5
  norm_num at h
  exact h

theorem and_mask_shiftRight (x s : Nat) : (x &&& (31 <<< s)) >>> s = x / 2 ^ s % 32 := by
  have h32 : x / 2 ^ s % 32 = x / 2 ^ s % 2 ^ 5 := by norm_num
  rw [h32, ← Nat.shiftRight_eq_div_pow]
  apply Nat.eq_of_testBit_eq
  intro j
  have h31 : (31 : Nat) = 2 ^ 5 - 1 := by norm_num
  simp only [Nat.testBit_shiftRight, Nat.testBit_and, Nat.testBit_shiftLeft, h31,
    Nat.testBit_two_pow_sub_one, Nat.testBit_mod_two_pow]
  have h1 : s + j ≥ s := Nat.le_add_right s j
  have h2 : s + j - s = j := by omega
  simp [h1, h2, Bool.and_comm]

theorem lor_two_pow_mul_add {k a b : Nat} (hb : b < 2 ^ k) :
    b ||| 2 ^ k * a = 2 ^ k * a + b := by
  rw [Nat.lor_comm]
  exact (Nat.mul_add_lt_is_or hb a).symm

theorem and_comp64_mask {x s : Nat} (hx : x < 2 ^ 64) (hs : s + 5 ≤ 64) :
    x &&& Word.comp64 (31 <<< s) = x % 2 ^ s + 2 ^ (s + 5) * (x / 2 ^ (s + 5)) := by
  have hmod : x % 2 ^ s < 2 ^ (s + 5) := by
    have h1 : x % 2 ^ s < 2 ^ s := Nat.mod_lt _ (Nat.pos_pow_of_pos s (by omega))
    have h2 : (2 : Nat) ^ s ≤ 2 ^ (s + 5) := Nat.pow_le_pow_right (by omega) (by omega)
    omega
  rw [Nat.add_comm, Nat.mul_add_lt_is_or hmod]
  apply Nat.eq_of_testBit_eq
  intro j
  have h31 : (31 : Nat) = 2 ^ 5 - 1 := by norm_num
  simp only [Word.comp64, Nat.testBit_and, Nat.testBit_xor, Nat.testBit_shiftLeft, h31,
    Nat.testBit_two_pow_sub_one, Nat.testBit_or, Nat.testBit_mul_pow_two,
    Nat.testBit_mod_two_pow]
  rcases Nat.lt_or_ge j s with hj | hj
  · have h1 : ¬(j ≥ s) := by omega
    have h2 : ¬(j ≥ s + 5) := by omega
    have h3 : j < 64 := by omega
    simp [h1, h2, h3, hj, Nat.testBit_lt_two_pow]
  · rcases Nat.lt_or_ge j (s + 5) with hj2 | hj2
    · have h1 : j ≥ s := hj
      have h2 : j - s < 5 := by omega
      have h3 : ¬(j ≥ s + 5) := by omega
      have h4 : j < 64 := by omega
      simp [h1, h2, h3, h4]
    · rcases Nat.lt_or_ge j 64 with hj3 | hj3
      · have h1 : j ≥ s := by omega
        have h2 : ¬(j - s < 5) := by omega
        have h3 : Nat.testBit (x >>> (s + 5)) (j - (s + 5)) = Nat.testBit x j := by
          rw [Nat.testBit_shiftRight]
          congr 1
          omega
        have hsr : x / 2 ^ (s + 5) = x >>> (s + 5) := (Nat.shiftRight_eq_div_pow x (s + 5)).symm
        rw [hsr]
        simp [h1, h2, hj2, hj3, h3]
      · have h1 : Nat.testBit x j = false :=
          Nat.testBit_lt_two_pow (by
            calc x < 2 ^ 64 := hx
            _ ≤ 2 ^ j := Nat.pow_le_pow_right (by omega) hj3)
        have h2 : Nat.testBit (x >>> (s + 5)) (j - (s + 5)) = false := by
          rw [Nat.testBit_shiftRight]
          apply Nat.testBit_lt_two_pow
          calc x < 2 ^ 64 := hx
          _ ≤ 2 ^ (s + 5 + (j - (s + 5))) := Nat.pow_le_pow_right (by omega) (by omega)
        have hsr : x / 2 ^ (s + 5) = x >>> (s + 5) := (Nat.shiftRight_eq_div_pow x (s + 5)).symm
        rw [hsr]
        simp [hj3, h1, h2]

theorem fromLetters_append (l1 l2 : List Nat) :
    fromLetters (l1 ++ l2) = fromLetters l1 + 32 ^ l1.length * fromLetters l2 := by
  induction l1 with
  | nil => simp [fromLetters]
  | cons v vs ih =>
    show v + 32 * fromLetters (vs ++ l2) = v + 32 * fromLetters vs + 32 ^ (vs.length + 1) * _
    rw [ih]
    ring

theorem fromLetters_eq_zero_iff {l : List Nat} (h : ∀ v ∈ l, 1 ≤ v) :
    fromLetters l = 0 ↔ l = [] := by
  cases l with
  | nil => simp [fromLetters]
  | cons v vs =>
    have := h v (List.mem_cons_self _ _)
    constructor
    · intro hz
      exact absurd hz (by show v + 32 * fromLetters vs ≠ 0; omega)
    · intro hc
      cases hc

theorem two_pow_mul_lor (k x y : Nat) : 2 ^ k * x ||| 2 ^ k * y = 2 ^ k * (x ||| y) := by
  apply Nat.eq_of_testBit_eq
  intro j
  simp only [Nat.testBit_or, Nat.testBit_mul_pow_two]
  by_cases hj : j ≥ k <;> simp [hj]

theorem charVal_bounds {c : Char} (h1 : 'a' ≤ c) (h2 : c ≤ 'z') :
    1 ≤ Word.charVal c ∧ Word.charVal c ≤ 26 ∧ 97 ≤ c.toNat ∧ c.toNat ≤ 122 := by
  have ha : (97 : Nat) ≤ c.toNat := by
    have := Char.le_def.mp h1
    simpa [Char.toNat] using this
  have hz : c.toNat ≤ 122 := by
    have := Char.le_def.mp h2
    simpa [Char.toNat] using this
  unfold Word.charVal
  omega

theorem build_eq {s : List Char} (h : ∀ c ∈ s, Word.charVal c < 32) :
    ∀ idx, Word.build s idx = 2 ^ (5 * idx) * fromLetters (s.map Word.charVal) := by
  induction s with
  | nil => intro idx; simp [Word.build, fromLetters]
  | cons c cs ih =>
    intro idx
    have hc : Word.charVal c < 32 := h c (List.mem_cons_self _ _)
    have htail : ∀ x ∈ cs, Word.charVal x < 32 := fun x hx => h x (List.mem_cons_of_mem _ hx)
    show (Word.charVal c <<< (5 * idx)) ||| Word.build cs (idx + 1) = _
    rw [ih htail (idx + 1), Nat.shiftLeft_eq]
    have e1 : (2 : Nat) ^ (5 * (idx + 1)) = 2 ^ (5 * idx) * 2 ^ 5 := by ring
    rw [e1, Nat.mul_comm (Word.charVal c) (2 ^ (5 * idx)), Nat.mul_assoc,
      two_pow_mul_lor]
    have h25 : (2 : Nat) ^ 5 = 32 := by norm_num
    have e2 : (Word.charVal c : Nat) ||| 2 ^ 5 * fromLetters (cs.map Word.charVal) =
        2 ^ 5 * fromLetters (cs.map Word.charVal) + Word.charVal c :=
      lor_two_pow_mul_add (by omega)
    rw [e2]
    show 2 ^ (5 * idx) * (2 ^ 5 * fromLetters (cs.map Word.charVal) + Word.charVal c) =
      2 ^ (5 * idx) * (Word.charVal c + 32 * fromLetters (cs.map Word.charVal))
    ring

theorem new_spec {s : List Char} (hne : s ≠ []) (hlen : s.length ≤ 12)
    (hlc : ∀ c ∈ s, 'a' ≤ c ∧ c ≤ 'z') :
    Word.new s = some (fromLetters (s.map Word.charVal)) := by
  have hall : s.all (fun c => decide ('a' ≤ c) && decide (c ≤ 'z')) = true := by
    rw [List.all_eq_true]
    intro c hc
    have := hlc c hc
    simp [this.1, this.2]
  have hb : ∀ c ∈ s, Word.charVal c < 32 := by
    intro c hc
    have := charVal_bounds (hlc c hc).1 (hlc c hc).2
    omega
  unfold Word.new
  rw [if_neg (by simpa [List.isEmpty_iff] using hne), if_neg (by omega), if_pos hall,
    build_eq hb 0]
  simp

theorem decodeGo_eq : ∀ (fuel : Nat) (l : List Nat), (∀ v ∈ l, 1 ≤ v ∧ v < 32) →
    l.length ≤ fuel →
    Word.decodeGo fuel (fromLetters l) = l.map (fun v => Char.ofNat (v + 96)) := by
  intro fuel
  induction fuel with
  | zero =>
    intro l _ hlen
    have : l = [] := List.length_eq_zero.mp (by omega)
    subst this
    rfl
  | succ fuel ih =>
    intro l hl hlen
    cases l with
    | nil => rfl
    | cons v vs =>
      have hv := hl v (List.mem_cons_self _ _)
      have htail : ∀ x ∈ vs, 1 ≤ x ∧ x < 32 := fun x hx => hl x (List.mem_cons_of_mem _ hx)
      have hnz : fromLetters (v :: vs) ≠ 0 := by
        show v + 32 * fromLetters vs ≠ 0
        omega
      have hmod : fromLetters (v :: vs) &&& 31 = v := by
        rw [land31_eq_mod]
        show (v + 32 * fromLetters vs) % 32 = v
        rw [Nat.add_mul_mod_self_left, Nat.mod_eq_of_lt hv.2]
      have hdiv : fromLetters (v :: vs) >>> 5 = fromLetters vs := by
        rw [Nat.shiftRight_eq_div_pow]
        show (v + 32 * fromLetters vs) / 2 ^ 5 = fromLetters vs
        norm_num
        rw [Nat.add_mul_div_left _ _ (by omega : (0:Nat) < 32), Nat.div_eq_of_lt hv.2,
          Nat.zero_add]
      show Word.decodeGo (fuel + 1) (fromLetters (v :: vs)) = _
      rw [Word.decodeGo, if_neg hnz, hmod, hdiv, ih vs htail (by simp at hlen; omega)]
      have : v + 97 - 1 = v + 96 := by omega
      rw [this]
      rfl

theorem decode_spec {l : List Nat} (hg : ∀ v ∈ l, 1 ≤ v ∧ v < 32) (hlen : l.length ≤ 12) :
    Word.decode (fromLetters l) = l.map (fun v => Char.ofNat (v + 96)) :=
  decodeGo_eq 13 l hg (by omega)

theorem pop_spec {v : Nat} {vs : List Nat} (h32 : ∀ x ∈ v :: vs, x < 32)
    (hv1 : ∀ x ∈ vs, 1 ≤ x) :
    Word.pop (fromLetters (v :: vs)) = if vs = [] then none else some (fromLetters vs) := by
  have hv : v < 32 := h32 v (List.mem_cons_self _ _)
  have hdiv : fromLetters (v :: vs) >>> 5 = fromLetters vs := by
    rw [Nat.shiftRight_eq_div_pow]
    show (v + 32 * fromLetters vs) / 2 ^ 5 = fromLetters vs
    norm_num
    rw [Nat.add_mul_div_left _ _ (by omega : (0:Nat) < 32), Nat.div_eq_of_lt hv, Nat.zero_add]
  unfold Word.pop
  rw [hdiv]
  by_cases hc : vs = []
  · subst hc
    simp [fromLetters]
  · rw [if_neg (by rw [fromLetters_eq_zero_iff hv1]; exact hc), if_neg hc]

theorem fromLetters_set {l : List Nat} : ∀ {i : Nat}, i < l.length → ∀ (v : Nat),
    fromLetters (l.set i v) =
      fromLetters (l.take i) + 32 ^ i * v + 32 ^ (i + 1) * fromLetters (l.drop (i + 1)) := by
  induction l with
  | nil => intro i hi; exact absurd hi (by simp)
  | cons v0 vs ih =>
    intro i hi v
    cases i with
    | zero =>
      show fromLetters (v :: vs) = _
      show v + 32 * fromLetters vs = fromLetters [] + 32 ^ 0 * v + 32 ^ 1 * fromLetters vs
      show v + 32 * fromLetters vs = 0 + 32 ^ 0 * v + 32 ^ 1 * fromLetters vs
      ring
    | succ i =>
      have hi2 : i < vs.length := by simpa using hi
      show fromLetters (v0 :: vs.set i v) = _
      show v0 + 32 * fromLetters (vs.set i v) = _
      rw [ih hi2 v]
      show _ = fromLetters (v0 :: vs.take i) + 32 ^ (i + 1) * v +
        32 ^ (i + 2) * fromLetters (vs.drop (i + 1))
      show _ = (v0 + 32 * fromLetters (vs.take i)) + 32 ^ (i + 1) * v +
        32 ^ (i + 2) * fromLetters (vs.drop (i + 1))
      ring

theorem fromLetters_decompose {l : List Nat} : ∀ {i : Nat}, i < l.length →
    fromLetters l =
      fromLetters (l.take i) + 32 ^ i * l.getD i 0 + 32 ^ (i + 1) * fromLetters (l.drop (i + 1)) := by
  induction l with
  | nil => intro i hi; exact absurd hi (by simp)
  | cons v0 vs ih =>
    intro i hi
    cases i with
    | zero =>
      show v0 + 32 * fromLetters vs = 0 + 32 ^ 0 * (v0 :: vs).getD 0 0 + 32 ^ 1 * fromLetters vs
      simp [List.getD]
    | succ i =>
      have hi2 : i < vs.length := by simpa using hi
      show v0 + 32 * fromLetters vs = _
      rw [show fromLetters ((v0 :: vs).take (i + 1)) = v0 + 32 * fromLetters (vs.take i) from rfl]
      have hgd : (v0 :: vs).getD (i + 1) 0 = vs.getD i 0 := by simp [List.getD]
      rw [hgd, show (v0 :: vs).drop (i + 2) = vs.drop (i + 1) from rfl, ih hi2]
      ring

theorem c_eq_fieldAt (us i : Nat) : (us &&& (31 <<< (i * 5))) >>> (i * 5) = fieldAt us i := by
  rw [and_mask_shiftRight, fieldAt, Nat.shiftRight_eq_div_pow, Nat.mul_comm 5 i]

theorem setField_eq {l : List Nat} (h32 : ∀ x ∈ l, x < 32) (hlen : l.length ≤ 12)
    {i : Nat} (hi : i < l.length) {v : Nat} (hv : v < 32) :
    (fromLetters l &&& Word.comp64 (31 <<< (i * 5))) ||| (v <<< (i * 5)) =
      fromLetters (l.set i v) := by
  have hx : fromLetters l < 2 ^ 64 := by
    have := fromLetters_lt_two_pow h32 hlen
    have h60 : (2 : Nat) ^ 60 < 2 ^ 64 := by norm_num
    omega
  have hs : i * 5 + 5 ≤ 64 := by omega
  rw [and_comp64_mask hx hs]
  have e32i : (2 : Nat) ^ (i * 5) = 32 ^ i := by
    rw [Nat.mul_comm i 5, Nat.pow_mul]
  have e32i1 : (2 : Nat) ^ (i * 5 + 5) = 32 ^ (i + 1) := by
    have : i * 5 + 5 = 5 * (i + 1) := by omega
    rw [this, Nat.pow_mul]
  rw [e32i, e32i1, fromLetters_mod_pow h32 i, fromLetters_div_pow h32 (i + 1)]
  rw [Nat.shiftLeft_eq, e32i]
  set A := fromLetters (l.take i) with hA
  set D := fromLetters (l.drop (i + 1)) with hD
  have hAlt : A < 32 ^ i := by
    have h1 : fromLetters (l.take i) < 32 ^ (l.take i).length :=
      fromLetters_lt fun x hx2 => h32 x (List.mem_of_mem_take hx2)
    have h2 : (l.take i).length = i := by
      rw [List.length_take]
      omega
    rw [h2] at h1
    exact h1
  have h1 : A + 32 ^ (i + 1) * D = 2 ^ ((i + 1) * 5) * D ||| A := by
    rw [Nat.add_comm]
    rw [show (32 : Nat) ^ (i + 1) = 2 ^ ((i + 1) * 5) by rw [Nat.mul_comm (i+1) 5, Nat.pow_mul]]
    exact Nat.mul_add_lt_is_or (by
      calc A < 32 ^ i := hAlt
      _ ≤ 32 ^ (i + 1) := Nat.pow_le_pow_right (by omega) (by omega)
      _ = 2 ^ ((i + 1) * 5) := by rw [Nat.mul_comm (i+1) 5, Nat.pow_mul]) D
  rw [h1, Nat.lor_assoc]
  have h2 : A ||| v * 32 ^ i = v * 32 ^ i + A := by
    rw [show v * 32 ^ i = 32 ^ i * v from Nat.mul_comm _ _]
    rw [show (32 : Nat) ^ i = 2 ^ (i * 5) from e32i.symm]
    exact lor_two_pow_mul_add (by rw [e32i]; exact hAlt)
  rw [h2]
  have h3 : 2 ^ ((i + 1) * 5) * D ||| (v * 32 ^ i + A) = 2 ^ ((i + 1) * 5) * D + (v * 32 ^ i + A) := by
    rw [Nat.lor_comm]
    apply lor_two_pow_mul_add
    have hvle : v ≤ 31 := by omega
    calc v * 32 ^ i + A < v * 32 ^ i + 32 ^ i := by omega
    _ = (v + 1) * 32 ^ i := by ring
    _ ≤ 32 * 32 ^ i := Nat.mul_le_mul_right _ (by omega)
    _ = 32 ^ (i + 1) := by rw [Nat.pow_succ, Nat.mul_comm]
    _ = 2 ^ ((i + 1) * 5) := by rw [Nat.mul_comm (i+1) 5, Nat.pow_mul]
  rw [h3, fromLetters_set hi v]
  rw [show (32 : Nat) ^ (i + 1) = 2 ^ ((i + 1) * 5) by rw [Nat.mul_comm (i+1) 5, Nat.pow_mul]]
  ring

theorem good_lt_32 {l : List Nat} (hg : GoodLetters l) : ∀ x ∈ l, x < 32 :=
  fun x hx => by have := hg x hx; omega

theorem mod32_head {v : Nat} (vs : List Nat) (hv : v < 32) :
    fromLetters (v :: vs) % 32 = v := by
  show (v + 32 * fromLetters vs) % 32 = v
  rw [Nat.add_mul_mod_self_left, Nat.mod_eq_of_lt hv]

theorem shiftRight5_cons {v : Nat} (vs : List Nat) (hv : v < 32) :
    fromLetters (v :: vs) >>> 5 = fromLetters vs := by
  rw [Nat.shiftRight_eq_div_pow]
  show (v + 32 * fromLetters vs) / 2 ^ 5 = fromLetters vs
  norm_num
  rw [Nat.add_mul_div_left _ _ (by omega : (0:Nat) < 32), Nat.div_eq_of_lt hv, Nat.zero_add]

theorem dupl_first_none {l : List Nat} (hg : GoodLetters l) (hne : l ≠ [])
    (hlen : l.length ≤ 12) {lim : Nat} (hlim : lim ≤ l.length) :
    Word.dupl_first (fromLetters l) lim = none := by
  unfold Word.dupl_first
  rw [len_fromLetters hg hne hlen, if_pos hlim]

theorem dupl_first_small {v : Nat} {vs : List Nat} (hg : GoodLetters (v :: vs))
    (hlen : (v :: vs).length ≤ 11) {lim : Nat} (hlim : (v :: vs).length < lim) :
    Word.dupl_first (fromLetters (v :: vs)) lim = some (fromLetters (v :: v :: vs)) := by
  have h32 := good_lt_32 hg
  have hv : v < 32 := h32 v (List.mem_cons_self _ _)
  have hlenw : Word.len (fromLetters (v :: vs)) = (v :: vs).length :=
    len_fromLetters hg (by simp) (by omega)
  unfold Word.dupl_first
  rw [hlenw, if_neg (by omega)]
  congr 1
  have hflt : fromLetters (v :: vs) < 32 ^ 11 := by
    have h1 := fromLetters_lt h32
    have h2 : (32 : Nat) ^ (v :: vs).length ≤ 32 ^ 11 := Nat.pow_le_pow_right (by omega) hlen
    omega
  have hsl : fromLetters (v :: vs) <<< 5 = 2 ^ 5 * fromLetters (v :: vs) := by
    rw [Nat.shiftLeft_eq, Nat.mul_comm]
  have hmod64 : 2 ^ 5 * fromLetters (v :: vs) < 2 ^ 64 := by
    have : (2 : Nat) ^ 5 * 32 ^ 11 ≤ 2 ^ 64 := by norm_num
    have := Nat.mul_lt_mul_left (show 0 < (2:Nat)^5 by norm_num) |>.mpr hflt
    omega
  rw [hsl, Nat.mod_eq_of_lt hmod64, land31_eq_mod, mod32_head vs hv, Nat.lor_comm,
    lor_two_pow_mul_add (show v < 2 ^ 5 by norm_num; omega)]
  show 2 ^ 5 * fromLetters (v :: vs) + v = v + 32 * fromLetters (v :: vs)
  norm_num
  omega

theorem dupl_first_full {h0 : Nat} {mid : List Nat} {c : Nat}
    (hg : GoodLetters (h0 :: mid ++ [c])) (hmid : mid.length = 10)
    {lim : Nat} (hlim : 12 < lim) :
    Word.dupl_first (fromLetters (h0 :: mid ++ [c])) lim =
      some (fromLetters ((h0 :: h0 :: mid) ++ [c % 16])) := by
  have h32 := good_lt_32 hg
  have hh0 : h0 < 32 := h32 h0 (List.mem_cons_self _ _)
  have hc : c < 32 := h32 c (by simp)
  have hlen : (h0 :: mid ++ [c]).length = 12 := by simp [hmid]
  have hlenw : Word.len (fromLetters (h0 :: mid ++ [c])) = 12 := by
    rw [len_fromLetters hg (by simp) (by omega), hlen]
  unfold Word.dupl_first
  rw [hlenw, if_neg (by omega)]
  congr 1
  have h32mid : ∀ x ∈ h0 :: mid, x < 32 := by
    intro x hx
    apply h32
    rcases List.mem_cons.mp hx with h | h
    · simp [h]
    · simp [List.mem_append, h]
  have hfmidlt : fromLetters (h0 :: mid) < 32 ^ 11 := by
    have h1 := fromLetters_lt h32mid
    have h2 : (h0 :: mid).length = 11 := by simp [hmid]
    rw [h2] at h1
    exact h1
  have hdecomp : fromLetters (h0 :: mid ++ [c]) =
      fromLetters (h0 :: mid) + 32 ^ 11 * c := by
    have := fromLetters_append (h0 :: mid) [c]
    have hl : (h0 :: mid).length = 11 := by simp [hmid]
    rw [hl] at this
    show fromLetters ((h0 :: mid) ++ [c]) = _
    rw [this]
    show fromLetters (h0 :: mid) + 32 ^ 11 * (c + 32 * fromLetters []) = _
    show fromLetters (h0 :: mid) + 32 ^ 11 * (c + 32 * 0) = _
    ring
  have hsl : fromLetters (h0 :: mid ++ [c]) <<< 5 = 2 ^ 5 * fromLetters (h0 :: mid ++ [c]) := by
    rw [Nat.shiftLeft_eq, Nat.mul_comm]
  have hcsplit : c = 16 * (c / 16) + c % 16 := (Nat.div_add_mod c 16).symm
  have hexpand : 2 ^ 5 * fromLetters (h0 :: mid ++ [c]) =
      (2 ^ 5 * fromLetters (h0 :: mid) + 2 ^ 60 * (c % 16)) + 2 ^ 64 * (c / 16) := by
    rw [hdecomp]
    conv_lhs => rw [hcsplit]
    have e1 : (32 : Nat) ^ 11 = 2 ^ 55 := by norm_num
    rw [e1]
    ring
  have hsmall : 2 ^ 5 * fromLetters (h0 :: mid) + 2 ^ 60 * (c % 16) < 2 ^ 64 := by
    have hm : c % 16 < 16 := Nat.mod_lt _ (by omega)
    have h1 : (2:Nat) ^ 5 * fromLetters (h0 :: mid) < 2 ^ 5 * 32 ^ 11 :=
      (Nat.mul_lt_mul_left (by norm_num)).mpr hfmidlt
    have h2 : (2:Nat) ^ 5 * 32 ^ 11 = 2 ^ 60 := by norm_num
    have h3 : (2:Nat) ^ 60 * (c % 16) ≤ 2 ^ 60 * 15 := Nat.mul_le_mul_left _ (by omega)
    have h4 : (2:Nat) ^ 60 + 2 ^ 60 * 15 = 2 ^ 64 := by norm_num
    omega
  have hmod : (fromLetters (h0 :: mid ++ [c]) <<< 5) % 2 ^ 64 =
      2 ^ 5 * fromLetters (h0 :: mid) + 2 ^ 60 * (c % 16) := by
    rw [hsl, hexpand, Nat.add_mul_mod_self_left, Nat.mod_eq_of_lt hsmall]
  have hregroup : 2 ^ 5 * fromLetters (h0 :: mid) + 2 ^ 60 * (c % 16) =
      2 ^ 5 * fromLetters ((h0 :: mid) ++ [c % 16]) := by
    have := fromLetters_append (h0 :: mid) [c % 16]
    have hl : (h0 :: mid).length = 11 := by simp [hmid]
    rw [hl] at this
    rw [this]
    show _ = 2 ^ 5 * (fromLetters (h0 :: mid) + 32 ^ 11 * (c % 16 + 32 * 0))
    have e1 : (32 : Nat) ^ 11 = 2 ^ 55 := by norm_num
    rw [e1]
    ring
  rw [hmod, hregroup, land31_eq_mod]
  have hhead : fromLetters (h0 :: mid ++ [c]) % 32 = h0 := mod32_head _ hh0
  rw [hhead, Nat.lor_comm, lor_two_pow_mul_add (show h0 < 2 ^ 5 by norm_num; omega)]
  show 2 ^ 5 * fromLetters ((h0 :: mid) ++ [c % 16]) + h0 =
    fromLetters ((h0 :: h0 :: mid) ++ [c % 16])
  show _ = h0 + 32 * fromLetters ((h0 :: mid) ++ [c % 16])
  norm_num
  omega

theorem getLastD_eq_getD (l : List Nat) : l.getLastD 0 = l.getD (l.length - 1) 0 := by
  rw [List.getLastD_eq_getLast?, List.getLast?_eq_getElem?, List.getD_eq_getElem?_getD]

theorem rotate_len1 {l : List Nat} (hg : GoodLetters l) (hlen : l.length = 1) :
    Word.rotate (fromLetters l) = [none, none] := by
  unfold Word.rotate
  rw [len_fromLetters hg (by intro h; rw [h] at hlen; simp at hlen) (by omega), hlen]
  simp

theorem rotate_spec {v : Nat} {vs : List Nat} (hg : GoodLetters (v :: vs)) (hne : vs ≠ [])
    (hlen : (v :: vs).length ≤ 12) :
    Word.rotate (fromLetters (v :: vs)) =
      [some (fromLetters (vs ++ [v])),
       some (fromLetters ((v :: vs).getLastD 0 :: (v :: vs).dropLast))] := by
  have h32 := good_lt_32 hg
  have hv : v < 32 := h32 v (List.mem_cons_self _ _)
  have hn2 : 2 ≤ (v :: vs).length := by
    cases vs with
    | nil => cases hne rfl
    | cons a as => simp
  set n := (v :: vs).length with hn
  have hlenw : Word.len (fromLetters (v :: vs)) = n := len_fromLetters hg (by simp) (by omega)
  have hflt : fromLetters (v :: vs) < 32 ^ n := by
    have := fromLetters_lt h32
    rw [← hn] at this
    exact this
  unfold Word.rotate
  rw [hlenw, if_neg (by omega)]
  dsimp only
  have hright : fromLetters (v :: vs) >>> 5 = fromLetters vs := shiftRight5_cons vs hv
  have hstart : fromLetters (v :: vs) &&& 31 = v := by
    rw [land31_eq_mod]
    exact mod32_head vs hv
  have hendv : (fromLetters (v :: vs) &&& (31 <<< ((n - 1) * 5))) >>> ((n - 1) * 5) =
      (v :: vs).getLastD 0 := by
    rw [c_eq_fieldAt, fieldAt_fromLetters h32, getLastD_eq_getD]
  have hrotl : (fromLetters (v :: vs) >>> 5) ||| ((fromLetters (v :: vs) &&& 31) <<< ((n - 1) * 5)) =
      fromLetters (vs ++ [v]) := by
    rw [hright, hstart, Nat.shiftLeft_eq]
    have hvslen : vs.length = n - 1 := by simp [hn]
    have hfvs : fromLetters vs < 2 ^ ((n - 1) * 5) := by
      have h1 : fromLetters vs < 32 ^ vs.length :=
        fromLetters_lt fun x hx => h32 x (List.mem_cons_of_mem _ hx)
      rw [hvslen] at h1
      rw [Nat.mul_comm (n-1) 5, Nat.pow_mul]
      exact h1
    rw [Nat.mul_comm v (2 ^ ((n - 1) * 5)), lor_two_pow_mul_add hfvs]
    rw [fromLetters_append]
    show _ = fromLetters vs + 32 ^ vs.length * (v + 32 * 0)
    rw [hvslen]
    rw [show (32 : Nat) ^ (n-1) = 2 ^ ((n-1) * 5) by rw [Nat.mul_comm (n-1) 5, Nat.pow_mul]]
    ring
  have hleft : ((fromLetters (v :: vs) <<< 5) % 2 ^ 64) &&&
      Word.comp64 ((31 <<< (n * 5)) % 2 ^ 64) = 2 ^ 5 * fromLetters ((v :: vs).dropLast) := by
    have hsl : fromLetters (v :: vs) <<< 5 = 2 ^ 5 * fromLetters (v :: vs) := by
      rw [Nat.shiftLeft_eq, Nat.mul_comm]
    have hx32 : ∀ x ∈ (0 :: v :: vs), x < 32 := by
      intro x hx
      rcases List.mem_cons.mp hx with h | h
      · omega
      · exact h32 x h
    have hcons0 : 2 ^ 5 * fromLetters (v :: vs) = fromLetters (0 :: v :: vs) := by
      show _ = 0 + 32 * fromLetters (v :: vs)
      norm_num
    have htake : fromLetters (0 :: v :: vs) % 2 ^ (n * 5) = 2 ^ 5 * fromLetters ((v :: vs).dropLast) := by
      rw [show (2:Nat) ^ (n * 5) = 32 ^ n by rw [Nat.mul_comm n 5, Nat.pow_mul]]
      rw [fromLetters_mod_pow hx32 n]
      have htk : (0 :: v :: vs).take n = 0 :: (v :: vs).take (n - 1) := by
        have : n = (n - 1) + 1 := by omega
        rw [this]
        rfl
      rw [htk, List.dropLast_eq_take]
      show 0 + 32 * fromLetters ((v :: vs).take (n - 1)) = _
      norm_num
      rw [show n - 1 = vs.length from by rw [hn]; simp]
    rcases Nat.lt_or_ge n 12 with hn11 | hn12
    · have hm1 : (31 : Nat) <<< (n * 5) < 2 ^ 64 := by
        rw [Nat.shiftLeft_eq]
        have h1 : (2:Nat) ^ (n * 5) ≤ 2 ^ 55 := Nat.pow_le_pow_right (by omega) (by omega)
        have : (31:Nat) * 2 ^ 55 < 2 ^ 64 := by norm_num
        have h2 : (31:Nat) * 2 ^ (n * 5) ≤ 31 * 2 ^ 55 := Nat.mul_le_mul_left _ h1
        omega
      have hm2 : 2 ^ 5 * fromLetters (v :: vs) < 2 ^ 64 := by
        have h1 : (32:Nat) ^ n ≤ 32 ^ 11 := Nat.pow_le_pow_right (by omega) (by omega)
        have h2 : (2:Nat) ^ 5 * 32 ^ 11 < 2 ^ 64 := by norm_num
        have h3 := (Nat.mul_lt_mul_left (show 0 < (2:Nat)^5 by norm_num)).mpr hflt
        have h4 : (2:Nat) ^ 5 * 32 ^ n ≤ 2 ^ 5 * 32 ^ 11 := Nat.mul_le_mul_left _ h1
        omega
      rw [hsl, Nat.mod_eq_of_lt hm2, Nat.mod_eq_of_lt hm1]
      rw [and_comp64_mask (by omega) (by omega)]
      have hdiv0 : 2 ^ 5 * fromLetters (v :: vs) / 2 ^ (n * 5 + 5) = 0 := by
        apply Nat.div_eq_of_lt
        have : (2:Nat) ^ 5 * fromLetters (v :: vs) < 2 ^ 5 * 32 ^ n :=
          (Nat.mul_lt_mul_left (by norm_num)).mpr hflt
        have e : (2:Nat) ^ 5 * 32 ^ n = 2 ^ (n * 5 + 5) := by
          rw [show (32:Nat) ^ n = 2 ^ (n * 5) by rw [Nat.mul_comm n 5, Nat.pow_mul]]
          rw [← Nat.pow_add]
          congr 1
          omega
        omega
      rw [hdiv0, Nat.mul_zero, Nat.add_zero, hcons0, htake]
    · have hn12e : n = 12 := by omega
      have hmaskc : Word.comp64 ((31 <<< (n * 5)) % 2 ^ 64) = 2 ^ 60 - 1 := by
        rw [show n * 5 = 60 by omega]
        decide
      rw [hmaskc]
      rw [Nat.and_pow_two_sub_one_eq_mod]
      rw [Nat.mod_mod_of_dvd _ (by norm_num : (2:Nat) ^ 60 ∣ 2 ^ 64)]
      rw [hsl, hcons0]
      rw [show (2:Nat) ^ 60 = 2 ^ (n * 5) by rw [show n * 5 = 60 by omega]]
      rw [htake]
  rw [hrotl]
  rw [show ((fromLetters (v :: vs) <<< 5) % 2 ^ 64) &&&
      Word.comp64 ((31 <<< (n * 5)) % 2 ^ 64) = 2 ^ 5 * fromLetters ((v :: vs).dropLast) from hleft]
  rw [hendv]
  have hlast32 : (v :: vs).getLastD 0 < 32 := by
    have hmem : (v :: vs).getLastD 0 ∈ v :: vs := by
      rw [List.getLastD_cons]
      exact List.getLastD_mem_cons vs v
    exact h32 _ hmem
  have h25 : (2 : Nat) ^ 5 = 32 := by norm_num
  rw [Nat.lor_comm, lor_two_pow_mul_add (show (v :: vs).getLastD 0 < 2 ^ 5 by omega)]
  show _ = [some (fromLetters (vs ++ [v])), some ((v :: vs).getLastD 0 + 32 * fromLetters ((v::vs).dropLast))]
  norm_num
  omega

theorem wrapInc_good {v : Nat} (h1 : 1 ≤ v) (h2 : v ≤ 26) :
    1 ≤ wrapInc v ∧ wrapInc v ≤ 26 ∧ wrapInc v ≠ v := by
  unfold wrapInc
  split <;> omega

theorem wrapDec_good {v : Nat} (h1 : 1 ≤ v) (h2 : v ≤ 26) :
    1 ≤ wrapDec v ∧ wrapDec v ≤ 26 ∧ wrapDec v ≠ v := by
  unfold wrapDec
  split <;> omega

theorem getD_eq_getElem {l : List Nat} {j : Nat} (hj : j < l.length) : l.getD j 0 = l[j] := by
  rw [List.getD_eq_getElem?_getD, List.getElem?_eq_getElem hj]
  rfl

theorem getD_mem {l : List Nat} {j : Nat} (hj : j < l.length) : l.getD j 0 ∈ l := by
  rw [getD_eq_getElem hj]
  exact List.getElem_mem hj

theorem upWord_fromLetters {l : List Nat} (hg : GoodLetters l) (hlen : l.length ≤ 12)
    {j : Nat} (hj : j < l.length) :
    upWord (fromLetters l) j = fromLetters (l.set j (wrapInc (l.getD j 0))) := by
  have h32 := good_lt_32 hg
  have hval := hg _ (getD_mem hj)
  have hw := wrapInc_good hval.1 hval.2
  unfold upWord
  rw [fieldAt_fromLetters h32 j]
  exact setField_eq h32 hlen hj (by omega)

theorem downWord_fromLetters {l : List Nat} (hg : GoodLetters l) (hlen : l.length ≤ 12)
    {j : Nat} (hj : j < l.length) :
    downWord (fromLetters l) j = fromLetters (l.set j (wrapDec (l.getD j 0))) := by
  have h32 := good_lt_32 hg
  have hval := hg _ (getD_mem hj)
  have hw := wrapDec_good hval.1 hval.2
  unfold downWord
  rw [fieldAt_fromLetters h32 j]
  exact setField_eq h32 hlen hj (by omega)

theorem shiftsGo_props (us : Nat) : ∀ (fuel i : Nat) (ret : List (Option Nat)),
    i + fuel = 6 → ret.length = 12 →
    ((Word.shiftsGo us fuel i ret).length = 12 ∧
     (∀ j, j < i → j < 6 →
        (Word.shiftsGo us fuel i ret)[j]? = ret[j]? ∧
        (Word.shiftsGo us fuel i ret)[j + 6]? = ret[j + 6]?) ∧
     (∀ j, i ≤ j → j < 6 → (∀ m, i ≤ m → m ≤ j → fieldAt us m ≠ 0) →
        (Word.shiftsGo us fuel i ret)[j]? = some (some (upWord us j)) ∧
        (Word.shiftsGo us fuel i ret)[j + 6]? = some (some (downWord us j))) ∧
     (∀ j, i ≤ j → j < 6 → (∃ m, i ≤ m ∧ m ≤ j ∧ fieldAt us m = 0) →
        (Word.shiftsGo us fuel i ret)[j]? = ret[j]? ∧
        (Word.shiftsGo us fuel i ret)[j + 6]? = ret[j + 6]?)) := by
  intro fuel
  induction fuel with
  | zero =>
    intro i ret hif hlen
    refine ⟨hlen, ?_, ?_, ?_⟩
    · intro j _ _
      exact ⟨rfl, rfl⟩
    · intro j hj hj6 _
      omega
    · intro j hj hj6 _
      omega
  | succ fuel ih =>
    intro i ret hif hlen
    have hc := c_eq_fieldAt us i
    have hbody : Word.shiftsGo us (fuel + 1) i ret =
        if fieldAt us i = 0 then ret
        else Word.shiftsGo us fuel (i + 1)
          ((ret.set i (some (upWord us i))).set (i + 6) (some (downWord us i))) := by
      conv_lhs => rw [Word.shiftsGo]
      simp only [hc, upWord, downWord, wrapInc, wrapDec]
    by_cases hf0 : fieldAt us i = 0
    · rw [hbody, if_pos hf0]
      refine ⟨hlen, ?_, ?_, ?_⟩
      · intro j _ _
        exact ⟨rfl, rfl⟩
      · intro j hij hj6 hall
        exact absurd hf0 (hall i (Nat.le_refl i) hij)
      · intro j _ _ _
        exact ⟨rfl, rfl⟩
    · rw [hbody, if_neg hf0]
      set ret2 := (ret.set i (some (upWord us i))).set (i + 6) (some (downWord us i)) with hret2
      have hlen2 : ret2.length = 12 := by simp [hret2, hlen]
      obtain ⟨ihlen, ihun, ihproc, ihstop⟩ := ih (i + 1) ret2 (by omega) hlen2
      have hi5 : i ≤ 5 := by omega
      have hslot : ∀ j, j < 6 → j ≠ i → ret2[j]? = ret[j]? := by
        intro j hj6 hji
        rw [hret2, List.getElem?_set_ne (by omega), List.getElem?_set_ne (by omega)]
      have hslot6 : ∀ j, j < 6 → j ≠ i → ret2[j + 6]? = ret[j + 6]? := by
        intro j hj6 hji
        rw [hret2, List.getElem?_set_ne (by omega), List.getElem?_set_ne (by omega)]
      refine ⟨ihlen, ?_, ?_, ?_⟩
      · intro j hji hj6
        obtain ⟨e1, e2⟩ := ihun j (by omega) hj6
        rw [e1, e2, hslot j hj6 (by omega), hslot6 j hj6 (by omega)]
        exact ⟨rfl, rfl⟩
      · intro j hij hj6 hall
        rcases Nat.eq_or_lt_of_le hij with rfl | hji
        · obtain ⟨e1, e2⟩ := ihun i (by omega) hj6
          rw [e1, e2]
          constructor
          · rw [hret2, List.getElem?_set_ne (by omega), List.getElem?_set_self (by omega)]
          · rw [hret2, List.getElem?_set_self (by simp [hlen]; omega)]
        · exact ihproc j (by omega) hj6 (fun m hm1 hm2 => hall m (by omega) hm2)
      · intro j hij hj6 hex
        obtain ⟨m, hm1, hm2, hm3⟩ := hex
        have hmi : m ≠ i := fun he => hf0 (he ▸ hm3)
        have hji : i < j := by omega
        obtain ⟨e1, e2⟩ := ihstop j (by omega) hj6 ⟨m, by omega, hm2, hm3⟩
        rw [e1, e2, hslot j hj6 (by omega), hslot6 j hj6 (by omega)]
        exact ⟨rfl, rfl⟩

theorem shifts_spec {l : List Nat} (hg : GoodLetters l) (hne : l ≠ [])
    (hlen : l.length ≤ 12) :
    ∀ j, j < 6 →
      ((Word.shifts (fromLetters l))[j]? =
        if j < l.length then some (some (fromLetters (l.set j (wrapInc (l.getD j 0))))) else some none) ∧
      ((Word.shifts (fromLetters l))[j + 6]? =
        if j < l.length then some (some (fromLetters (l.set j (wrapDec (l.getD j 0))))) else some none) := by
  have h32 := good_lt_32 hg
  have hfield : ∀ m, fieldAt (fromLetters l) m = l.getD m 0 := fieldAt_fromLetters h32
  have hfne : ∀ m, m < l.length → fieldAt (fromLetters l) m ≠ 0 := by
    intro m hm
    rw [hfield m, getD_eq_getElem hm]
    have := hg _ (List.getElem_mem hm)
    omega
  have hfz : ∀ m, l.length ≤ m → fieldAt (fromLetters l) m = 0 := by
    intro m hm
    rw [hfield m, List.getD_eq_getElem?_getD, List.getElem?_eq_none hm]
    rfl
  obtain ⟨plen, pun, pproc, pstop⟩ :=
    shiftsGo_props (fromLetters l) 6 0 (List.replicate 12 none) (by omega) (by simp)
  intro j hj6
  by_cases hjl : j < l.length
  · obtain ⟨e1, e2⟩ := pproc j (Nat.zero_le j) hj6 (fun m _ hm2 => hfne m (by omega))
    unfold Word.shifts
    rw [e1, e2, upWord_fromLetters hg hlen hjl, downWord_fromLetters hg hlen hjl]
    simp [hjl]
  · obtain ⟨e1, e2⟩ := pstop j (Nat.zero_le j) hj6 ⟨l.length, by omega, by omega, hfz _ (Nat.le_refl _)⟩
    unfold Word.shifts
    have h12 : j < 12 := by omega
    have h126 : j + 6 < 12 := by omega
    have r1 : (List.replicate 12 (none : Option Nat))[j]? = some none := by
      rw [List.getElem?_replicate, if_pos h12]
    have r2 : (List.replicate 12 (none : Option Nat))[j + 6]? = some none := by
      rw [List.getElem?_replicate, if_pos h126]
    rw [e1, e2, r1, r2, if_neg hjl, if_neg hjl]
    exact ⟨rfl, rfl⟩

theorem good_set {l : List Nat} (hg : GoodLetters l) {v : Nat} (h1 : 1 ≤ v) (h2 : v ≤ 26)
    (i : Nat) : GoodLetters (l.set i v) := by
  intro x hx
  rcases List.mem_or_eq_of_mem_set hx with h | h
  · exact hg x h
  · subst h
    exact ⟨h1, h2⟩

theorem fieldAt_set {l : List Nat} (h32 : ∀ x ∈ l, x < 32) {i : Nat} (hi : i < l.length)
    {v : Nat} (hv : v < 32) (j : Nat) :
    fieldAt (fromLetters (l.set i v)) j = if j = i then v else fieldAt (fromLetters l) j := by
  have h32s : ∀ x ∈ l.set i v, x < 32 := by
    intro x hx
    rcases List.mem_or_eq_of_mem_set hx with h | h
    · exact h32 x h
    · subst h; exact hv
  rw [fieldAt_fromLetters h32s, fieldAt_fromLetters h32]
  by_cases hji : j = i
  · subst hji
    rw [if_pos rfl, List.getD_eq_getElem?_getD, List.getElem?_set_self (by omega)]
    rfl
  · rw [if_neg hji, List.getD_eq_getElem?_getD, List.getElem?_set_ne (by omega),
      ← List.getD_eq_getElem?_getD]

theorem fromLetters_append_zero (g : List Nat) : fromLetters (g ++ [0]) = fromLetters g := by
  rw [fromLetters_append]
  show fromLetters g + 32 ^ g.length * (0 + 32 * 0) = fromLetters g
  ring

theorem RepInv_good {l : List Nat} (hg : GoodLetters l) (hne : l ≠ []) :
    RepInv (fromLetters l) := by
  have h32 := good_lt_32 hg
  refine ⟨?_, ?_, ?_⟩
  · rw [Ne, fromLetters_eq_zero_iff (fun v hv => (hg v hv).1)]
    exact hne
  · intro i _
    rw [fieldAt_fromLetters h32]
    by_cases hi : i < l.length
    · rw [getD_eq_getElem hi]
      exact (hg _ (List.getElem_mem hi)).2
    · rw [List.getD_eq_getElem?_getD, List.getElem?_eq_none (by omega)]
      simp
  · intro i j hij _ hjne
    rw [fieldAt_fromLetters h32] at hjne ⊢
    by_cases hj : j < l.length
    · have hi : i < l.length := by omega
      rw [getD_eq_getElem hi]
      have := (hg _ (List.getElem_mem hi)).1
      omega
    · rw [List.getD_eq_getElem?_getD, List.getElem?_eq_none (by omega)] at hjne
      exact absurd rfl hjne

theorem decode_good {l : List Nat} (hg : GoodLetters l) (hlen : l.length ≤ 12) :
    Word.decode (fromLetters l) = l.map (fun v => Char.ofNat (v + 96)) :=
  decode_spec (fun v hv => ⟨(hg v hv).1, by have := (hg v hv).2; omega⟩) hlen

theorem decode_map_charVal {s : List Char} (hlc : ∀ c ∈ s, 'a' ≤ c ∧ c ≤ 'z') :
    (s.map Word.charVal).map (fun v => Char.ofNat (v + 96)) = s := by
  rw [List.map_map]
  conv_rhs => rw [← List.map_id s]
  apply List.map_congr_left
  intro c hc
  have hcb := charVal_bounds (hlc c hc).1 (hlc c hc).2
  have he : Word.charVal c + 96 = c.toNat := by
    unfold Word.charVal
    omega
  simp only [Function.comp_apply, id_eq, he, Char.ofNat_toNat]

theorem good_map_charVal {s : List Char} (hlc : ∀ c ∈ s, 'a' ≤ c ∧ c ≤ 'z') :
    GoodLetters (s.map Word.charVal) := by
  intro v hv
  obtain ⟨c, hc, rfl⟩ := List.mem_map.mp hv
  have := charVal_bounds (hlc c hc).1 (hlc c hc).2
  exact ⟨this.1, this.2.1⟩

theorem shifts_length (us : Nat) : (Word.shifts us).length = 12 :=
  (shiftsGo_props us 6 0 (List.replicate 12 none) (by omega) (by simp)).1

/-- C5: for every non-empty string of at most 12 lowercase ASCII letters,
encoding succeeds and decoding the produced Word yields the string again:
`decode(encode(w)) == w`. -/
theorem c5_decode_encode_roundtrip {s : List Char} (hne : s ≠ []) (hlen : s.length ≤ 12)
    (hlc : ∀ c ∈ s, 'a' ≤ c ∧ c ≤ 'z') :
    ∃ w, Word.new s = some w ∧ Word.decode w = s := by
  refine ⟨fromLetters (s.map Word.charVal), new_spec hne hlen hlc, ?_⟩
  rw [decode_good (good_map_charVal hlc) (by simpa using hlen), decode_map_charVal hlc]

/-- Witness for C5 at the concrete input "ab". -/
theorem c5_witness :
    (['a', 'b'] : List Char) ≠ [] ∧ (['a', 'b'] : List Char).length ≤ 12 ∧
      (∀ c ∈ (['a', 'b'] : List Char), 'a' ≤ c ∧ c ≤ 'z') ∧
      ∃ w, Word.new ['a', 'b'] = some w ∧ Word.decode w = ['a', 'b'] :=
  ⟨by decide, by decide, by decide,
    c5_decode_encode_roundtrip (by decide) (by decide) (by decide)⟩

/-- C6: for every valid input string, the length of the encoded Word equals
the number of characters, and the length function is the leading-zero-count
formula `ceil(bit_length / 5)`. -/
theorem c6_len_correct {s : List Char} (hne : s ≠ []) (hlen : s.length ≤ 12)
    (hlc : ∀ c ∈ s, 'a' ≤ c ∧ c ≤ 'z') :
    ∃ w, Word.new s = some w ∧ Word.len w = s.length ∧
      Word.len w = (Nat.size w + 5 - 1) / 5 := by
  have hg := good_map_charVal hlc
  have hmlen : (s.map Word.charVal).length ≤ 12 := by simpa using hlen
  have hmne : s.map Word.charVal ≠ [] := by
    intro h
    exact hne (List.map_eq_nil.mp h)
  refine ⟨fromLetters (s.map Word.charVal), new_spec hne hlen hlc, ?_, ?_⟩
  · rw [len_fromLetters hg hmne hmlen, List.length_map]
  · apply len_eq_size_formula
    have := fromLetters_lt_two_pow (good_lt_32 hg) hmlen
    have h60 : (2 : Nat) ^ 60 < 2 ^ 64 := by norm_num
    omega

/-- Witness for C6 at the concrete input "abc". -/
theorem c6_witness :
    (['a', 'b', 'c'] : List Char) ≠ [] ∧ (['a', 'b', 'c'] : List Char).length ≤ 12 ∧
      (∀ c ∈ (['a', 'b', 'c'] : List Char), 'a' ≤ c ∧ c ≤ 'z') ∧
      ∃ w, Word.new ['a', 'b', 'c'] = some w ∧ Word.len w = 3 ∧
        Word.len w = (Nat.size w + 5 - 1) / 5 :=
  ⟨by decide, by decide, by decide,
    c6_len_correct (by decide) (by decide) (by decide)⟩

/-- C7 counterexample: the 12-letter word "aaaaaaaaaaap" with length cap 13
satisfies the claim's hypothesis `length(x) < cap`, and `dupl_first`
produces a Word, but `pop` of it gives the 11-letter word "aaaaaaaaaaa",
not the original: the `w <<= 5` inside `dupl_first` truncates the
most-significant bit of the 12th field at 64 bits. -/
theorem c7_counterexample :
    WValid (fromLetters [1, 1, 1, 1, 1, 1, 1, 1, 1, 1, 1, 16]) ∧
    Word.len (fromLetters [1, 1, 1, 1, 1, 1, 1, 1, 1, 1, 1, 16]) < 13 ∧
    (Word.dupl_first (fromLetters [1, 1, 1, 1, 1, 1, 1, 1, 1, 1, 1, 16]) 13).bind Word.pop =
      some (fromLetters [1, 1, 1, 1, 1, 1, 1, 1, 1, 1, 1]) ∧
    (Word.dupl_first (fromLetters [1, 1, 1, 1, 1, 1, 1, 1, 1, 1, 1, 16]) 13).bind Word.pop ≠
      some (fromLetters [1, 1, 1, 1, 1, 1, 1, 1, 1, 1, 1, 16]) :=
  ⟨⟨[1, 1, 1, 1, 1, 1, 1, 1, 1, 1, 1, 16], by decide, by decide, by decide, rfl⟩,
    by decide, by decide, by decide⟩

/-- C7 (amended): for every valid Word `x` of length strictly below the
12-letter capacity and every length cap above `length(x)`,
`pop(dupl_first(x, cap)) == x`. -/
theorem c7_pop_dupl_first_inverse {w lim : Nat} (hv : WValid w)
    (hlim : Word.len w < lim) (hcap : Word.len w < 12) :
    ∃ y, Word.dupl_first w lim = some y ∧ Word.pop y = some w := by
  obtain ⟨l, hg, hne, hlen, rfl⟩ := hv
  rw [len_fromLetters hg hne hlen] at hlim hcap
  cases l with
  | nil => cases hne rfl
  | cons v vs =>
    refine ⟨fromLetters (v :: v :: vs), dupl_first_small hg (by omega) hlim, ?_⟩
    have h32 : ∀ x ∈ v :: v :: vs, x < 32 := by
      intro x hx
      rcases List.mem_cons.mp hx with h | h
      · subst h
        exact good_lt_32 hg _ (List.mem_cons_self _ _)
      · exact good_lt_32 hg _ h
    rw [pop_spec h32 (fun x hx => (hg x hx).1), if_neg (by simp)]

/-- Witness for C7 (amended) at the concrete input "ab" with cap 3. -/
theorem c7_witness :
    WValid (fromLetters [1, 2]) ∧ Word.len (fromLetters [1, 2]) < 3 ∧
      Word.len (fromLetters [1, 2]) < 12 ∧
      ∃ y, Word.dupl_first (fromLetters [1, 2]) 3 = some y ∧
        Word.pop y = some (fromLetters [1, 2]) :=
  ⟨⟨[1, 2], by decide, by decide, by decide, rfl⟩, by decide, by decide,
    c7_pop_dupl_first_inverse ⟨[1, 2], by decide, by decide, by decide, rfl⟩
      (by decide) (by decide)⟩

/-- C4 counterexample: the valid 7-letter word "aaaaaaa" has position 6
occupied, yet `shifts` produces neither the increment neighbour "aaaaaab"
nor the decrement neighbour "aaaaaaz" for that position — the loop only
covers positions 0..5, so occupied positions beyond the sixth yield no
neighbours at all. -/
theorem c4_counterexample :
    WValid (fromLetters [1, 1, 1, 1, 1, 1, 1]) ∧
    6 < Word.len (fromLetters [1, 1, 1, 1, 1, 1, 1]) ∧
    ∀ o ∈ Word.shifts (fromLetters [1, 1, 1, 1, 1, 1, 1]),
      o ≠ some (fromLetters [1, 1, 1, 1, 1, 1, 2]) ∧
      o ≠ some (fromLetters [1, 1, 1, 1, 1, 1, 26]) :=
  ⟨⟨[1, 1, 1, 1, 1, 1, 1], by decide, by decide, by decide, rfl⟩, by decide, by decide⟩

/-- C4 (amended): `shifts` never fails (it always returns the 12-slot
array), and every occupied position among the first six yields exactly the
two neighbours — the increment and the decrement of that letter, all other
fields unchanged — each distinct from the input word. -/
theorem c4_shifts_first_six {w : Nat} (hv : WValid w) :
    (Word.shifts w).length = 12 ∧
    ∀ i, i < 6 → i < Word.len w →
      ∃ u d, (Word.shifts w)[i]? = some (some u) ∧ (Word.shifts w)[i + 6]? = some (some d) ∧
        (∀ j, fieldAt u j = if j = i then wrapInc (fieldAt w i) else fieldAt w j) ∧
        (∀ j, fieldAt d j = if j = i then wrapDec (fieldAt w i) else fieldAt w j) ∧
        u ≠ w ∧ d ≠ w := by
  obtain ⟨l, hg, hne, hlen, rfl⟩ := hv
  have h32 := good_lt_32 hg
  refine ⟨shifts_length _, ?_⟩
  intro i hi6 hilen
  rw [len_fromLetters hg hne hlen] at hilen
  obtain ⟨e1, e2⟩ := shifts_spec hg hne hlen i hi6
  rw [if_pos hilen] at e1 e2
  have hval := hg _ (getD_mem hilen)
  have hup := wrapInc_good hval.1 hval.2
  have hdn := wrapDec_good hval.1 hval.2
  have hfw : fieldAt (fromLetters l) i = l.getD i 0 := fieldAt_fromLetters h32 i
  refine ⟨fromLetters (l.set i (wrapInc (l.getD i 0))),
    fromLetters (l.set i (wrapDec (l.getD i 0))), e1, e2, ?_, ?_, ?_, ?_⟩
  · intro j
    rw [fieldAt_set h32 hilen (by omega) j, hfw]
  · intro j
    rw [fieldAt_set h32 hilen (by omega) j, hfw]
  · intro he
    have := congrArg (fun x => fieldAt x i) he
    simp only at this
    rw [fieldAt_set h32 hilen (by omega) i, if_pos rfl, hfw] at this
    exact hup.2.2 this
  · intro he
    have := congrArg (fun x => fieldAt x i) he
    simp only at this
    rw [fieldAt_set h32 hilen (by omega) i, if_pos rfl, hfw] at this
    exact hdn.2.2 this

/-- Witness for C4 (amended) at the concrete input "bc", position 1. -/
theorem c4_witness :
    WValid (fromLetters [2, 3]) ∧
      ((Word.shifts (fromLetters [2, 3])).length = 12 ∧
        ∀ i, i < 6 → i < Word.len (fromLetters [2, 3]) →
          ∃ u d, (Word.shifts (fromLetters [2, 3]))[i]? = some (some u) ∧
            (Word.shifts (fromLetters [2, 3]))[i + 6]? = some (some d) ∧
            (∀ j, fieldAt u j =
              if j = i then wrapInc (fieldAt (fromLetters [2, 3]) i)
              else fieldAt (fromLetters [2, 3]) j) ∧
            (∀ j, fieldAt d j =
              if j = i then wrapDec (fieldAt (fromLetters [2, 3]) i)
              else fieldAt (fromLetters [2, 3]) j) ∧
            u ≠ fromLetters [2, 3] ∧ d ≠ fromLetters [2, 3]) :=
  ⟨⟨[2, 3], by decide, by decide, by decide, rfl⟩,
    c4_shifts_first_six ⟨[2, 3], by decide, by decide, by decide, rfl⟩⟩

/-- C8: for every valid Word, slot `i` of the 12-slot `shifts` array (for
`i` in 0..6) holds the increment-neighbour of position `i` and slot `i + 6`
the decrement-neighbour, with all other letters unchanged; slots for
positions at or beyond the word's length are `None`. -/
theorem c8_shifts_slot_layout {w : Nat} (hv : WValid w) :
    ∀ i, i < 6 →
      (Word.len w ≤ i →
        (Word.shifts w)[i]? = some none ∧ (Word.shifts w)[i + 6]? = some none) ∧
      (i < Word.len w →
        ∃ u d, (Word.shifts w)[i]? = some (some u) ∧ (Word.shifts w)[i + 6]? = some (some d) ∧
          (∀ j, fieldAt u j = if j = i then wrapInc (fieldAt w i) else fieldAt w j) ∧
          (∀ j, fieldAt d j = if j = i then wrapDec (fieldAt w i) else fieldAt w j)) := by
  obtain ⟨l, hg, hne, hlen, rfl⟩ := hv
  have h32 := good_lt_32 hg
  intro i hi6
  obtain ⟨e1, e2⟩ := shifts_spec hg hne hlen i hi6
  rw [len_fromLetters hg hne hlen]
  constructor
  · intro hge
    rw [if_neg (by omega)] at e1 e2
    exact ⟨e1, e2⟩
  · intro hilen
    rw [if_pos hilen] at e1 e2
    have hfw : fieldAt (fromLetters l) i = l.getD i 0 := fieldAt_fromLetters h32 i
    have hval := hg _ (getD_mem hilen)
    have hup := wrapInc_good hval.1 hval.2
    have hdn := wrapDec_good hval.1 hval.2
    refine ⟨fromLetters (l.set i (wrapInc (l.getD i 0))),
      fromLetters (l.set i (wrapDec (l.getD i 0))), e1, e2, ?_, ?_⟩
    · intro j
      rw [fieldAt_set h32 hilen (by omega) j, hfw]
    · intro j
      rw [fieldAt_set h32 hilen (by omega) j, hfw]

/-- Witness for C8 at the concrete input "bc": the slot layout theorem
applies, and the array is exactly the one the claim lists — increments
"cc", "bd" in slots 0, 1, decrements "ac", "bb" in slots 6, 7, and `None`
in the remaining 8 slots. -/
theorem c8_witness :
    WValid (fromLetters [2, 3]) ∧
      Word.shifts (fromLetters [2, 3]) =
        [some (fromLetters [3, 3]), some (fromLetters [2, 4]), none, none, none, none,
         some (fromLetters [1, 3]), some (fromLetters [2, 2]), none, none, none, none] ∧
      (∀ i, i < 6 →
        (Word.len (fromLetters [2, 3]) ≤ i →
          (Word.shifts (fromLetters [2, 3]))[i]? = some none ∧
          (Word.shifts (fromLetters [2, 3]))[i + 6]? = some none) ∧
        (i < Word.len (fromLetters [2, 3]) →
          ∃ u d, (Word.shifts (fromLetters [2, 3]))[i]? = some (some u) ∧
            (Word.shifts (fromLetters [2, 3]))[i + 6]? = some (some d) ∧
            (∀ j, fieldAt u j =
              if j = i then wrapInc (fieldAt (fromLetters [2, 3]) i)
              else fieldAt (fromLetters [2, 3]) j) ∧
            (∀ j, fieldAt d j =
              if j = i then wrapDec (fieldAt (fromLetters [2, 3]) i)
              else fieldAt (fromLetters [2, 3]) j))) :=
  ⟨⟨[2, 3], by decide, by decide, by decide, rfl⟩, by decide,
    c8_shifts_slot_layout ⟨[2, 3], by decide, by decide, by decide, rfl⟩⟩

/-- C9: rotate on a single-letter word yields `[None, None]`; on a word of
length at least 2 it yields exactly the rotate-left-by-one neighbour (first
letter moved to the end) followed by the rotate-right-by-one neighbour
(last letter moved to the front), stated on the decoded strings. -/
theorem c9_rotate_neighbours {w : Nat} (hv : WValid w) :
    (Word.len w = 1 → Word.rotate w = [none, none]) ∧
    (2 ≤ Word.len w →
      ∃ a b, Word.rotate w = [some a, some b] ∧
        Word.decode a = (Word.decode w).drop 1 ++ (Word.decode w).take 1 ∧
        Word.decode b =
          (Word.decode w).drop ((Word.decode w).length - 1) ++
            (Word.decode w).take ((Word.decode w).length - 1)) := by
  obtain ⟨l, hg, hne, hlen, rfl⟩ := hv
  have h32 := good_lt_32 hg
  rw [len_fromLetters hg hne hlen]
  constructor
  · intro h1
    exact rotate_len1 hg h1
  · intro h2
    cases l with
    | nil => cases hne rfl
    | cons v vs =>
      have hvs : vs ≠ [] := by
        intro h
        subst h
        simp at h2
      have hrot := rotate_spec hg hvs hlen
      have hglast : (v :: vs).getLastD 0 ∈ v :: vs := by
        rw [List.getLastD_cons]
        exact List.getLastD_mem_cons vs v
      have hga : GoodLetters (vs ++ [v]) := by
        intro x hx
        rcases List.mem_append.mp hx with h | h
        · exact hg x (List.mem_cons_of_mem _ h)
        · rw [List.mem_singleton.mp h]
          exact hg v (List.mem_cons_self _ _)
      have hgb : GoodLetters ((v :: vs).getLastD 0 :: (v :: vs).dropLast) := by
        intro x hx
        rcases List.mem_cons.mp hx with h | h
        · subst h
          exact hg _ hglast
        · exact hg x (List.dropLast_subset _ h)
      have hlena : (vs ++ [v]).length ≤ 12 := by
        simp only [List.length_append, List.length_singleton]
        simp at hlen
        omega
      have hlenb : ((v :: vs).getLastD 0 :: (v :: vs).dropLast).length ≤ 12 := by
        simp only [List.length_cons, List.length_dropLast]
        simp at hlen ⊢
        omega
      refine ⟨fromLetters (vs ++ [v]),
        fromLetters ((v :: vs).getLastD 0 :: (v :: vs).dropLast), hrot, ?_, ?_⟩
      · rw [decode_good hga hlena, decode_good hg hlen]
        simp only [List.map_append, List.map_cons, List.map_nil]
        rfl
      · rw [decode_good hgb hlenb, decode_good hg hlen]
        have hn1 : (v :: vs).length - 1 < (v :: vs).length := by simp
        have hlast : ((v :: vs).map (fun x => Char.ofNat (x + 96))).length - 1 =
            (v :: vs).length - 1 := by
          rw [List.length_map]
        rw [hlast, ← List.map_drop, ← List.map_take]
        have hdrop : (v :: vs).drop ((v :: vs).length - 1) = [(v :: vs).getLastD 0] := by
          rw [List.drop_eq_getElem_cons hn1, List.drop_eq_nil_iff.mpr (by omega)]
          rw [getLastD_eq_getD, getD_eq_getElem hn1]
        have htake : (v :: vs).take ((v :: vs).length - 1) = (v :: vs).dropLast :=
          (List.dropLast_eq_take _).symm
        rw [hdrop, htake]
        simp

/-- Witness for C9 at the concrete input "abc": rotate yields "bca" and
"cab". -/
theorem c9_witness :
    WValid (fromLetters [1, 2, 3]) ∧
      Word.rotate (fromLetters [1, 2, 3]) =
        [some (fromLetters [2, 3, 1]), some (fromLetters [3, 1, 2])] ∧
      (2 ≤ Word.len (fromLetters [1, 2, 3]) →
        ∃ a b, Word.rotate (fromLetters [1, 2, 3]) = [some a, some b] ∧
          Word.decode a = (Word.decode (fromLetters [1, 2, 3])).drop 1 ++
            (Word.decode (fromLetters [1, 2, 3])).take 1 ∧
          Word.decode b =
            (Word.decode (fromLetters [1, 2, 3])).drop
                ((Word.decode (fromLetters [1, 2, 3])).length - 1) ++
              (Word.decode (fromLetters [1, 2, 3])).take
                ((Word.decode (fromLetters [1, 2, 3])).length - 1)) :=
  ⟨⟨[1, 2, 3], by decide, by decide, by decide, rfl⟩, by decide,
    (c9_rotate_neighbours ⟨[1, 2, 3], by decide, by decide, by decide, rfl⟩).2⟩

/-- C10: every Word produced by encode, and every Word produced by one of
the four operators from a valid Word, satisfies the representation
invariants (non-zero encoded integer, all 5-bit fields in 0..=26, occupied
fields a contiguous run from field 0); in particular no operator ever
produces an all-zero encoded value, so the non-zero wrapper construction
inside `Word::raw` never fails. -/
theorem c10_operator_invariants :
    (∀ (s : List Char) (w : Nat), Word.new s = some w → RepInv w) ∧
    (∀ (w lim : Nat), WValid w →
      (∀ y, Word.dupl_first w lim = some y → RepInv y) ∧
      (∀ y, Word.pop w = some y → RepInv y) ∧
      (∀ o ∈ Word.rotate w, ∀ y, o = some y → RepInv y) ∧
      (∀ o ∈ Word.shifts w, ∀ y, o = some y → RepInv y)) := by
  constructor
  · intro s w hnew
    unfold Word.new at hnew
    split at hnew
    · exact absurd hnew (by simp)
    · split at hnew
      · exact absurd hnew (by simp)
      · split at hnew
        · rename_i hnem hlen hall
          have hne : s ≠ [] := by
            intro h
            subst h
            simp at hnem
          have hlc : ∀ c ∈ s, 'a' ≤ c ∧ c ≤ 'z' := by
            intro c hc
            have := List.all_eq_true.mp hall c hc
            simpa using this
          have hb : ∀ c ∈ s, Word.charVal c < 32 := by
            intro c hc
            have := charVal_bounds (hlc c hc).1 (hlc c hc).2
            omega
          have hw : w = fromLetters (s.map Word.charVal) := by
            have := build_eq hb 0
            simp at this
            have h2 := Option.some.inj hnew
            rw [← h2, this]
          subst hw
          exact RepInv_good (good_map_charVal hlc) (by
            intro h
            exact hne (List.map_eq_nil.mp h))
        · exact absurd hnew (by simp)
  · intro w lim hv
    obtain ⟨l, hg, hne, hlen, rfl⟩ := hv
    refine ⟨?_, ?_, ?_, ?_⟩
    · -- dupl_first
      intro y hy
      cases l with
      | nil => cases hne rfl
      | cons v vs =>
        by_cases hcap : lim ≤ (v :: vs).length
        · rw [dupl_first_none hg hne hlen hcap] at hy
          cases hy
        · by_cases hsm : (v :: vs).length ≤ 11
          · rw [dupl_first_small hg hsm (by omega)] at hy
            have hy2 := Option.some.inj hy
            subst hy2
            refine RepInv_good ?_ (by simp)
            intro x hx
            rcases List.mem_cons.mp hx with h | h
            · subst h
              exact hg _ (List.mem_cons_self _ _)
            · exact hg x h
          · have h12 : (v :: vs).length = 12 := by omega
            have hvs : vs ≠ [] := by
              intro h
              subst h
              simp at h12
            have hsplit : vs.dropLast ++ [vs.getLast hvs] = vs :=
              List.dropLast_append_getLast hvs
            have hg2 : GoodLetters (v :: vs.dropLast ++ [vs.getLast hvs]) := by
              rw [show v :: vs.dropLast ++ [vs.getLast hvs] = v :: (vs.dropLast ++ [vs.getLast hvs]) from rfl, hsplit]
              exact hg
            have hmid : vs.dropLast.length = 10 := by
              simp at h12
              simp [h12]
            have hfull := dupl_first_full hg2 hmid (show 12 < lim by omega)
            rw [show v :: vs.dropLast ++ [vs.getLast hvs] = v :: (vs.dropLast ++ [vs.getLast hvs]) from rfl, hsplit] at hfull
            rw [hfull] at hy
            have hy2 := Option.some.inj hy
            subst hy2
            have hgoodmid : GoodLetters (v :: v :: vs.dropLast) := by
              intro x hx
              rcases List.mem_cons.mp hx with h | h
              · subst h
                exact hg _ (List.mem_cons_self _ _)
              · rcases List.mem_cons.mp h with h2 | h2
                · subst h2
                  exact hg _ (List.mem_cons_self _ _)
                · exact hg x (List.mem_cons_of_mem _ (List.dropLast_subset _ h2))
            by_cases hz : vs.getLast hvs % 16 = 0
            · rw [hz, fromLetters_append_zero]
              exact RepInv_good hgoodmid (by simp)
            · apply RepInv_good
              · intro x hx
                rcases List.mem_append.mp hx with h | h
                · exact hgoodmid x h
                · rw [List.mem_singleton.mp h]
                  have : vs.getLast hvs % 16 < 16 := Nat.mod_lt _ (by omega)
                  omega
              · simp
    · -- pop
      intro y hy
      cases l with
      | nil => cases hne rfl
      | cons v vs =>
        rw [pop_spec (good_lt_32 hg) (fun x hx => (hg x (List.mem_cons_of_mem _ hx)).1)] at hy
        split at hy
        · cases hy
        · rename_i hvs
          have hy2 := Option.some.inj hy
          subst hy2
          exact RepInv_good (fun x hx => hg x (List.mem_cons_of_mem _ hx)) hvs
    · -- rotate
      intro o ho y hoy
      subst hoy
      by_cases h1 : l.length = 1
      · rw [rotate_len1 hg h1] at ho
        rcases List.mem_cons.mp ho with h | h
        · cases h
        · rcases List.mem_singleton.mp h
      · cases l with
        | nil => cases hne rfl
        | cons v vs =>
          have hvs : vs ≠ [] := by
            intro h
            subst h
            simp at h1
          rw [rotate_spec hg hvs hlen] at ho
          have hglast : (v :: vs).getLastD 0 ∈ v :: vs := by
            rw [List.getLastD_cons]
            exact List.getLastD_mem_cons vs v
          rcases List.mem_cons.mp ho with h | h
          · have hy2 := Option.some.inj h
            rw [hy2]
            apply RepInv_good
            · intro x hx
              rcases List.mem_append.mp hx with h2 | h2
              · exact hg x (List.mem_cons_of_mem _ h2)
              · rw [List.mem_singleton.mp h2]
                exact hg v (List.mem_cons_self _ _)
            · simp
          · rcases List.mem_singleton.mp h with h2
            have hy2 := Option.some.inj h2
            rw [hy2]
            apply RepInv_good
            · intro x hx
              rcases List.mem_cons.mp hx with h3 | h3
              · subst h3
                exact hg _ hglast
              · exact hg x (List.dropLast_subset _ h3)
            · simp
    · -- shifts
      intro o ho y hoy
      subst hoy
      obtain ⟨j, hj⟩ := List.mem_iff_getElem?.mp ho
      have hjlen : j < 12 := by
        have := List.getElem?_eq_some_iff.mp hj
        obtain ⟨hlt, _⟩ := this
        rw [shifts_length] at hlt
        exact hlt
      rcases Nat.lt_or_ge j 6 with hj6 | hj6
      · obtain ⟨e1, _⟩ := shifts_spec hg hne hlen j hj6
        rw [e1] at hj
        split at hj
        · rename_i hjl
          have hy2 := Option.some.inj (Option.some.inj hj)
          rw [← hy2]
          have hval := hg _ (getD_mem hjl)
          have hup := wrapInc_good hval.1 hval.2
          apply RepInv_good (good_set hg hup.1 hup.2.1 j)
          intro h
          have hL := congrArg List.length h
          rw [List.length_set] at hL
          simp only [List.length_nil] at hL
          omega
        · simp at hj
      · have hj66 : j - 6 < 6 := by omega
        obtain ⟨_, e2⟩ := shifts_spec hg hne hlen (j - 6) hj66
        rw [show j = (j - 6) + 6 by omega, e2] at hj
        split at hj
        · rename_i hjl
          have hy2 := Option.some.inj (Option.some.inj hj)
          rw [← hy2]
          have hval := hg _ (getD_mem hjl)
          have hdn := wrapDec_good hval.1 hval.2
          apply RepInv_good (good_set hg hdn.1 hdn.2.1 (j - 6))
          intro h
          have hL := congrArg List.length h
          rw [List.length_set] at hL
          simp only [List.length_nil] at hL
          omega
        · simp at hj

/-- Witness for C10: encode of "ab" and `dupl_first` on it satisfy the
representation invariants. -/
theorem c10_witness :
    Word.new ['a', 'b'] = some (fromLetters [1, 2]) ∧ RepInv (fromLetters [1, 2]) ∧
      WValid (fromLetters [1, 2]) ∧
      Word.dupl_first (fromLetters [1, 2]) 3 = some (fromLetters [1, 1, 2]) ∧
      RepInv (fromLetters [1, 1, 2]) :=
  ⟨by decide, c10_operator_invariants.1 ['a', 'b'] _ (by decide),
    ⟨[1, 2], by decide, by decide, by decide, rfl⟩, by decide,
    (c10_operator_invariants.2 (fromLetters [1, 2]) 3
      ⟨[1, 2], by decide, by decide, by decide, rfl⟩).1 _ (by decide)⟩

/-! Search-engine lemmas: properties of the visited map, of one expansion
iteration, and the breadth-first depth invariant. -/

theorem mfind_singleton (s x : Nat) :
    mfind [(s, s)] x = if s = x then some s else none := by
  unfold mfind
  by_cases h : s = x
  · subst h
    simp
  · rw [if_neg h, List.find?_cons_of_neg _ (by simpa using h)]
    simp

theorem mfind_append_some {m : List (Nat × Nat)} {e : Nat × Nat} {x p : Nat}
    (h : mfind m x = some p) : mfind (m ++ [e]) x = some p := by
  unfold mfind at h ⊢
  rw [List.find?_append]
  cases hf : m.find? (fun q => q.1 == x) with
  | none => rw [hf] at h; simp at h
  | some q =>
    rw [hf] at h
    simpa [Option.or] using h

theorem mfind_append_none {m : List (Nat × Nat)} {x w k : Nat} (h : mfind m x = none) :
    mfind (m ++ [(w, k)]) x = if w = x then some k else none := by
  unfold mfind at h ⊢
  rw [List.find?_append]
  have hf : m.find? (fun q => q.1 == x) = none := by
    cases hf : m.find? (fun q => q.1 == x) with
    | none => rfl
    | some q => rw [hf] at h; simp at h
  rw [hf]
  by_cases hw : w = x
  · subst hw
    rw [if_pos rfl, List.find?_cons_of_pos _ (by simp)]
    simp [Option.or]
  · rw [if_neg hw, List.find?_cons_of_neg _ (by simpa using hw)]
    simp [Option.or]

theorem appl_some_found (k : Nat) (st : List (Nat × Nat) × List Nat) (w : Nat)
    (hf : (mfind st.1 w).isSome) : appl k st (some w) = st := by
  show (match mfind st.1 w with
    | some _ => st
    | none => (st.1 ++ [(w, k)], st.2 ++ [w])) = st
  cases hq : mfind st.1 w with
  | none => rw [hq] at hf; cases hf
  | some q => rfl

theorem appl_some_new (k : Nat) (st : List (Nat × Nat) × List Nat) (w : Nat)
    (hf : mfind st.1 w = none) :
    appl k st (some w) = (st.1 ++ [(w, k)], st.2 ++ [w]) := by
  show (match mfind st.1 w with
    | some _ => st
    | none => (st.1 ++ [(w, k)], st.2 ++ [w])) = _
  rw [hf]

theorem appl_mono (k : Nat) (st : List (Nat × Nat) × List Nat) (op : Option Nat) {x p : Nat}
    (h : mfind st.1 x = some p) : mfind (appl k st op).1 x = some p := by
  cases op with
  | none => exact h
  | some w =>
    cases hf : mfind st.1 w with
    | some q => rw [appl_some_found k st w (by rw [hf]; rfl)]; exact h
    | none => rw [appl_some_new k st w hf]; exact mfind_append_some h

theorem appl_prov (k : Nat) (st : List (Nat × Nat) × List Nat) (op : Option Nat) {x p : Nat}
    (h : mfind (appl k st op).1 x = some p) :
    mfind st.1 x = some p ∨ (p = k ∧ op = some x ∧ mfind st.1 x = none) := by
  cases op with
  | none => exact Or.inl h
  | some w =>
    cases hf : mfind st.1 w with
    | some q =>
      rw [appl_some_found k st w (by rw [hf]; rfl)] at h
      exact Or.inl h
    | none =>
      rw [appl_some_new k st w hf] at h
      by_cases hx : mfind st.1 x = none
      · rw [mfind_append_none hx] at h
        by_cases hw : w = x
        · subst hw
          rw [if_pos rfl] at h
          exact Or.inr ⟨(Option.some.inj h).symm, rfl, hx⟩
        · rw [if_neg hw] at h
          cases h
      · cases hx2 : mfind st.1 x with
        | none => exact absurd hx2 hx
        | some q =>
          rw [show (st.1 ++ [(w, k)], st.2 ++ [w]).1 = st.1 ++ [(w, k)] from rfl,
            mfind_append_some hx2] at h
          exact Or.inl h

theorem appl_isSome (k : Nat) (st : List (Nat × Nat) × List Nat) (op : Option Nat) {x : Nat}
    (h : (mfind st.1 x).isSome) : (mfind (appl k st op).1 x).isSome := by
  cases hx : mfind st.1 x with
  | none => rw [hx] at h; cases h
  | some p => rw [appl_mono k st op hx]; rfl

theorem appl_cover (k : Nat) (st : List (Nat × Nat) × List Nat) {b : Nat} :
    (mfind (appl k st (some b)).1 b).isSome := by
  cases hf : mfind st.1 b with
  | some q =>
    rw [appl_some_found k st b (by rw [hf]; rfl), hf]
    rfl
  | none =>
    rw [appl_some_new k st b hf]
    rw [show (st.1 ++ [(b, k)], st.2 ++ [b]).1 = st.1 ++ [(b, k)] from rfl,
      mfind_append_none hf, if_pos rfl]
    rfl

theorem appl_frontier (k : Nat) (st : List (Nat × Nat) × List Nat) (op : Option Nat)
    (m0 : List (Nat × Nat))
    (hmono : ∀ x p, mfind m0 x = some p → mfind st.1 x = some p)
    (hf : ∀ x, x ∈ st.2 ↔ ((mfind st.1 x).isSome ∧ mfind m0 x = none)) :
    (∀ x p, mfind m0 x = some p → mfind (appl k st op).1 x = some p) ∧
    (∀ x, x ∈ (appl k st op).2 ↔
      ((mfind (appl k st op).1 x).isSome ∧ mfind m0 x = none)) := by
  refine ⟨fun x p hx => appl_mono k st op (hmono x p hx), ?_⟩
  intro x
  cases op with
  | none => exact hf x
  | some w =>
    cases hfw : mfind st.1 w with
    | some q =>
      rw [appl_some_found k st w (by rw [hfw]; rfl)]
      exact hf x
    | none =>
      rw [appl_some_new k st w hfw]
      constructor
      · intro hx
        rcases List.mem_append.mp hx with h | h
        · obtain ⟨h1, h2⟩ := (hf x).mp h
          refine ⟨?_, h2⟩
          cases hm : mfind st.1 x with
          | none => rw [hm] at h1; cases h1
          | some p =>
            rw [show (st.1 ++ [(w, k)], st.2 ++ [w]).1 = st.1 ++ [(w, k)] from rfl,
              mfind_append_some hm]
            rfl
        · have hxw : x = w := List.mem_singleton.mp h
          subst hxw
          refine ⟨by
            rw [show (st.1 ++ [(x, k)], st.2 ++ [x]).1 = st.1 ++ [(x, k)] from rfl,
              mfind_append_none hfw, if_pos rfl]
            rfl, ?_⟩
          cases hm0 : mfind m0 x with
          | none => rfl
          | some p => exact absurd (hmono x p hm0) (by rw [hfw]; simp)
      · rintro ⟨h1, h2⟩
        cases hm : mfind st.1 x with
        | some p =>
          exact List.mem_append.mpr (Or.inl ((hf x).mpr ⟨by rw [hm]; rfl, h2⟩))
        | none =>
          rw [show (st.1 ++ [(w, k)], st.2 ++ [w]).1 = st.1 ++ [(w, k)] from rfl,
            mfind_append_none hm] at h1
          by_cases hw : w = x
          · exact List.mem_append.mpr (Or.inr (by simp [hw]))
          · rw [if_neg hw] at h1
            cases h1

theorem applFold_mono (k : Nat) : ∀ (ops : List (Option Nat)) (st : List (Nat × Nat) × List Nat)
    {x p : Nat}, mfind st.1 x = some p → mfind ((ops.foldl (appl k) st)).1 x = some p := by
  intro ops
  induction ops with
  | nil => intro st x p h; exact h
  | cons op rest ih =>
    intro st x p h
    exact ih (appl k st op) (appl_mono k st op h)

theorem applFold_isSome (k : Nat) (ops : List (Option Nat)) (st : List (Nat × Nat) × List Nat)
    {x : Nat} (h : (mfind st.1 x).isSome) : (mfind ((ops.foldl (appl k) st)).1 x).isSome := by
  cases hx : mfind st.1 x with
  | none => rw [hx] at h; cases h
  | some p => rw [applFold_mono k ops st hx]; rfl

theorem applFold_prov (k : Nat) : ∀ (ops : List (Option Nat)) (st : List (Nat × Nat) × List Nat)
    {x p : Nat}, mfind ((ops.foldl (appl k) st)).1 x = some p →
    mfind st.1 x = some p ∨ (p = k ∧ some x ∈ ops ∧ mfind st.1 x = none) := by
  intro ops
  induction ops with
  | nil => intro st x p h; exact Or.inl h
  | cons op rest ih =>
    intro st x p h
    rcases ih (appl k st op) h with h2 | ⟨hp, hmem, hnone⟩
    · rcases appl_prov k st op h2 with h3 | ⟨hp, hop, hnone⟩
      · exact Or.inl h3
      · exact Or.inr ⟨hp, by rw [hop]; exact List.mem_cons_self _ _, hnone⟩
    · by_cases hx : mfind st.1 x = none
      · exact Or.inr ⟨hp, List.mem_cons_of_mem _ hmem, hx⟩
      · cases hx2 : mfind st.1 x with
        | none => exact absurd hx2 hx
        | some q => exact absurd (appl_mono k st op hx2) (by rw [hnone]; simp)

theorem applFold_cover (k : Nat) : ∀ (ops : List (Option Nat)) (st : List (Nat × Nat) × List Nat)
    {b : Nat}, some b ∈ ops → (mfind ((ops.foldl (appl k) st)).1 b).isSome := by
  intro ops
  induction ops with
  | nil => intro st b h; cases h
  | cons op rest ih =>
    intro st b h
    rcases List.mem_cons.mp h with h | h
    · subst h
      exact applFold_isSome k rest (appl k st (some b)) (appl_cover k st)
    · exact ih (appl k st op) h

theorem applFold_frontier (k : Nat) (m0 : List (Nat × Nat)) :
    ∀ (ops : List (Option Nat)) (st : List (Nat × Nat) × List Nat),
    (∀ x p, mfind m0 x = some p → mfind st.1 x = some p) →
    (∀ x, x ∈ st.2 ↔ ((mfind st.1 x).isSome ∧ mfind m0 x = none)) →
    (∀ x p, mfind m0 x = some p → mfind ((ops.foldl (appl k) st)).1 x = some p) ∧
    (∀ x, x ∈ ((ops.foldl (appl k) st)).2 ↔
      ((mfind ((ops.foldl (appl k) st)).1 x).isSome ∧ mfind m0 x = none)) := by
  intro ops
  induction ops with
  | nil => intro st h1 h2; exact ⟨h1, h2⟩
  | cons op rest ih =>
    intro st h1 h2
    obtain ⟨g1, g2⟩ := appl_frontier k st op m0 h1 h2
    exact ih (appl k st op) g1 g2

theorem expandFrom_facts (lim k : Nat) (st : List (Nat × Nat) × List Nat) :
    (∀ x p, mfind st.1 x = some p → mfind (expandFrom lim st k).1 x = some p) ∧
    (∀ x p, mfind (expandFrom lim st k).1 x = some p →
      mfind st.1 x = some p ∨ (p = k ∧ EdgeStep lim k x ∧ mfind st.1 x = none)) ∧
    (∀ b, EdgeStep lim k b → (mfind (expandFrom lim st k).1 b).isSome) := by
  refine ⟨fun x p h => applFold_mono k _ st h, ?_, fun b hb => applFold_cover k _ st hb⟩
  intro x p h
  rcases applFold_prov k _ st h with h2 | ⟨hp, hmem, hnone⟩
  · exact Or.inl h2
  · exact Or.inr ⟨hp, hmem, hnone⟩

theorem frontierFold_spec (lim : Nat) (m : List (Nat × Nat)) (Q : Nat → Prop) :
    ∀ (L : List Nat) (st : List (Nat × Nat) × List Nat),
    (∀ x p, mfind m x = some p → mfind st.1 x = some p) →
    (∀ x p, mfind st.1 x = some p →
      mfind m x = some p ∨ (Q p ∧ EdgeStep lim p x ∧ mfind m x = none)) →
    (∀ x, x ∈ st.2 ↔ ((mfind st.1 x).isSome ∧ mfind m x = none)) →
    (∀ k, k ∈ L → Q k) →
    (∀ x p, mfind m x = some p → mfind (L.foldl (expandFrom lim) st).1 x = some p) ∧
    (∀ x p, mfind (L.foldl (expandFrom lim) st).1 x = some p →
      mfind m x = some p ∨ (Q p ∧ EdgeStep lim p x ∧ mfind m x = none)) ∧
    (∀ x, x ∈ (L.foldl (expandFrom lim) st).2 ↔
      ((mfind (L.foldl (expandFrom lim) st).1 x).isSome ∧ mfind m x = none)) ∧
    (∀ k, k ∈ L → ∀ b, EdgeStep lim k b → (mfind (L.foldl (expandFrom lim) st).1 b).isSome) ∧
    (∀ b, (mfind st.1 b).isSome → (mfind (L.foldl (expandFrom lim) st).1 b).isSome) := by
  intro L
  induction L with
  | nil =>
    intro st h1 h2 h3 _
    exact ⟨h1, h2, h3, fun k hk => absurd hk (List.not_mem_nil k), fun b hb => hb⟩
  | cons k rest ih =>
    intro st h1 h2 h3 hQ
    obtain ⟨e1, e2, e3⟩ := expandFrom_facts lim k st
    have hQk : Q k := hQ k (List.mem_cons_self _ _)
    have g1 : ∀ x p, mfind m x = some p → mfind (expandFrom lim st k).1 x = some p :=
      fun x p h => e1 x p (h1 x p h)
    have g2 : ∀ x p, mfind (expandFrom lim st k).1 x = some p →
        mfind m x = some p ∨ (Q p ∧ EdgeStep lim p x ∧ mfind m x = none) := by
      intro x p h
      rcases e2 x p h with h4 | ⟨hp, hedge, hnone⟩
      · exact h2 x p h4
      · subst hp
        refine Or.inr ⟨hQk, hedge, ?_⟩
        cases hm : mfind m x with
        | none => rfl
        | some q => exact absurd (h1 x q hm) (by rw [hnone]; simp)
    have g3 : ∀ x, x ∈ (expandFrom lim st k).2 ↔
        ((mfind (expandFrom lim st k).1 x).isSome ∧ mfind m x = none) :=
      (applFold_frontier k m (neighbors lim k) st h1 h3).2
    obtain ⟨r1, r2, r3, r4, r5⟩ := ih (expandFrom lim st k) g1 g2 g3
      (fun q hq => hQ q (List.mem_cons_of_mem _ hq))
    refine ⟨r1, r2, r3, ?_, fun b hb => r5 b (by
      cases hx : mfind st.1 b with
      | none => rw [hx] at hb; cases hb
      | some p => rw [e1 b p hx]; rfl)⟩
    intro q hq b hb
    rcases List.mem_cons.mp hq with h | h
    · subst h
      exact r5 b (e3 b hb)
    · exact r4 q h b hb

theorem stepSearch_spec (lim : Nat) (m : List (Nat × Nat)) (F : List Nat) (Q : Nat → Prop)
    (hQ : ∀ k, k ∈ F → Q k) :
    (∀ x p, mfind m x = some p → mfind (stepSearch lim (m, F)).1 x = some p) ∧
    (∀ x p, mfind (stepSearch lim (m, F)).1 x = some p →
      mfind m x = some p ∨ (Q p ∧ EdgeStep lim p x ∧ mfind m x = none)) ∧
    (∀ x, x ∈ (stepSearch lim (m, F)).2 ↔
      ((mfind (stepSearch lim (m, F)).1 x).isSome ∧ mfind m x = none)) ∧
    (∀ k, k ∈ F → ∀ b, EdgeStep lim k b → (mfind (stepSearch lim (m, F)).1 b).isSome) := by
  have h := frontierFold_spec lim m Q F (m, []) (fun x p h => h)
    (fun x p h => Or.inl h)
    (by
      intro x
      constructor
      · intro hx
        cases hx
      · rintro ⟨h1, h2⟩
        rw [show (m, ([] : List Nat)).1 = m from rfl] at h1
        cases hm : mfind m x with
        | none => rw [hm] at h1; cases h1
        | some p => rw [hm] at h2; cases h2)
    hQ
  exact ⟨h.1, h.2.1, h.2.2.1, h.2.2.2.1⟩

theorem reachN_zero {lim s x : Nat} : ReachN lim 0 s x ↔ x = s := by
  constructor
  · intro h
    cases h
    rfl
  · intro h
    subst h
    exact ReachN.refl _

theorem reachN_succ {lim s x n : Nat} :
    ReachN lim (n + 1) s x ↔ ∃ p, ReachN lim n s p ∧ EdgeStep lim p x := by
  constructor
  · intro h
    cases h with
    | step h e => exact ⟨_, h, e⟩
  · rintro ⟨p, hp, he⟩
    exact ReachN.step hp he

theorem minD_unique {lim s x a b : Nat}
    (h1 : ReachN lim a s x) (h1m : ∀ i, i < a → ¬ ReachN lim i s x)
    (h2 : ReachN lim b s x) (h2m : ∀ i, i < b → ¬ ReachN lim i s x) : a = b := by
  rcases Nat.lt_trichotomy a b with h | h | h
  · exact absurd h1 (h2m a h)
  · exact h
  · exact absurd h2 (h1m b h)

theorem exists_minD {lim s x : Nat} (h : ∃ k, ReachN lim k s x) :
    ∃ d, ReachN lim d s x ∧ ∀ i, i < d → ¬ ReachN lim i s x := by
  obtain ⟨k, hk⟩ := h
  induction k using Nat.strong_induction_on with
  | _ k ih =>
    by_cases hj : ∃ j, j < k ∧ ReachN lim j s x
    · obtain ⟨j, hjk, hjr⟩ := hj
      exact ih j hjk hjr
    · exact ⟨k, hk, fun i hik hir => hj ⟨i, hik, hir⟩⟩

/-- The breadth-first depth invariant: after `t` expansion iterations the
visited map holds exactly the words reachable within `t` steps, the
frontier holds exactly the words at distance exactly `t`, and every map
entry records an edge from a word one level closer to the start (with the
start mapped to itself). -/
theorem iterate_inv (lim s : Nat) : ∀ t : Nat,
    (∀ x, (mfind (iterateSearch lim s t).1 x).isSome ↔ ∃ k, k ≤ t ∧ ReachN lim k s x) ∧
    (∀ x, x ∈ (iterateSearch lim s t).2 ↔
      (ReachN lim t s x ∧ ∀ j, j < t → ¬ ReachN lim j s x)) ∧
    (∀ x p, mfind (iterateSearch lim s t).1 x = some p → (x = s ∧ p = s) ∨
      ∃ j, j + 1 ≤ t ∧ EdgeStep lim p x ∧
        (ReachN lim j s p ∧ ∀ i, i < j → ¬ ReachN lim i s p) ∧
        (ReachN lim (j + 1) s x ∧ ∀ i, i < j + 1 → ¬ ReachN lim i s x)) := by
  intro t
  induction t with
  | zero =>
    refine ⟨?_, ?_, ?_⟩
    · intro x
      show (mfind [(s, s)] x).isSome ↔ _
      rw [mfind_singleton]
      constructor
      · intro h
        by_cases hsx : s = x
        · exact ⟨0, Nat.le_refl 0, reachN_zero.mpr hsx.symm⟩
        · rw [if_neg hsx] at h
          cases h
      · rintro ⟨k, hk, hr⟩
        have hk0 : k = 0 := by omega
        subst hk0
        rw [if_pos (reachN_zero.mp hr).symm]
        rfl
    · intro x
      show x ∈ [s] ↔ _
      constructor
      · intro h
        have hxs : x = s := List.mem_singleton.mp h
        subst hxs
        exact ⟨ReachN.refl _, fun j hj => absurd hj (by omega)⟩
      · rintro ⟨hr, _⟩
        rw [reachN_zero.mp hr]
        exact List.mem_singleton.mpr rfl
    · intro x p h
      show _ ∨ _
      rw [show (iterateSearch lim s 0).1 = [(s, s)] from rfl, mfind_singleton] at h
      by_cases hsx : s = x
      · rw [if_pos hsx] at h
        exact Or.inl ⟨hsx.symm, (Option.some.inj h).symm⟩
      · rw [if_neg hsx] at h
        cases h
  | succ t ih =>
    obtain ⟨ia, ib, ic⟩ := ih
    have hstep := stepSearch_spec lim (iterateSearch lim s t).1 (iterateSearch lim s t).2
      (fun p => ReachN lim t s p ∧ ∀ j, j < t → ¬ ReachN lim j s p)
      (fun k hk => (ib k).mp hk)
    have hpair : (iterateSearch lim s t).1 = ((iterateSearch lim s t).1, (iterateSearch lim s t).2).1 := rfl
    have hs2 : iterateSearch lim s (t + 1) =
        stepSearch lim ((iterateSearch lim s t).1, (iterateSearch lim s t).2) := by
      show stepSearch lim (iterateSearch lim s t) = _
      rfl
    obtain ⟨s1, s2, s3, s4⟩ := hstep
    have ha : ∀ x, (mfind (iterateSearch lim s (t + 1)).1 x).isSome ↔
        ∃ k, k ≤ t + 1 ∧ ReachN lim k s x := by
      intro x
      rw [hs2]
      constructor
      · intro h
        cases hm : mfind (stepSearch lim ((iterateSearch lim s t).1, (iterateSearch lim s t).2)).1 x with
        | none => rw [hm] at h; cases h
        | some p =>
          rcases s2 x p hm with h2 | ⟨⟨hrp, _⟩, hedge, _⟩
          · obtain ⟨k, hk, hr⟩ := (ia x).mp (by rw [h2]; rfl)
            exact ⟨k, by omega, hr⟩
          · exact ⟨t + 1, Nat.le_refl _, ReachN.step hrp hedge⟩
      · rintro ⟨k, hk, hr⟩
        by_cases hle : ∃ j, j ≤ t ∧ ReachN lim j s x
        · obtain ⟨p, hp⟩ := Option.isSome_iff_exists.mp ((ia x).mpr hle)
          rw [s1 x p hp]
          rfl
        · have hkt : k = t + 1 := by
            rcases Nat.lt_or_ge k (t + 1) with h | h
            · exact absurd ⟨k, by omega, hr⟩ hle
            · omega
          subst hkt
          obtain ⟨p, hrp, hedge⟩ := reachN_succ.mp hr
          have hminp : ∀ j, j < t → ¬ ReachN lim j s p := by
            intro j hj hrj
            exact hle ⟨j + 1, by omega, ReachN.step hrj hedge⟩
          exact s4 p ((ib p).mpr ⟨hrp, hminp⟩) x hedge
    refine ⟨ha, ?_, ?_⟩
    · intro x
      rw [hs2]
      rw [s3 x]
      constructor
      · rintro ⟨h1, h2⟩
        have hx1 := (ha x).mp (by rw [hs2]; exact h1)
        obtain ⟨k, hk, hr⟩ := hx1
        have hnot : ∀ j, j ≤ t → ¬ ReachN lim j s x := by
          intro j hj hrj
          have := (ia x).mpr ⟨j, hj, hrj⟩
          rw [h2] at this
          cases this
        have hkt : k = t + 1 := by
          rcases Nat.lt_or_ge k (t + 1) with h | h
          · exact absurd hr (hnot k (by omega))
          · omega
        subst hkt
        exact ⟨hr, fun j hj => hnot j (by omega)⟩
      · rintro ⟨h1, h2⟩
        constructor
        · rw [← hs2]
          exact (ha x).mpr ⟨t + 1, Nat.le_refl _, h1⟩
        · cases hm : mfind (iterateSearch lim s t).1 x with
          | none => rfl
          | some p =>
            obtain ⟨k, hk, hr⟩ := (ia x).mp (by rw [hm]; rfl)
            exact absurd hr (h2 k (by omega))
    · intro x p h
      rw [hs2] at h
      rcases s2 x p h with h2 | ⟨⟨hrp, hminp⟩, hedge, hnone⟩
      · rcases ic x p h2 with h3 | ⟨j, hj, he, hm1, hm2⟩
        · exact Or.inl h3
        · exact Or.inr ⟨j, by omega, he, hm1, hm2⟩
      · refine Or.inr ⟨t, Nat.le_refl _, hedge, ⟨hrp, hminp⟩, ReachN.step hrp hedge, ?_⟩
        intro i hi hri
        have : (mfind (iterateSearch lim s t).1 x).isSome := (ia x).mpr ⟨i, by omega, hri⟩
        rw [hnone] at this
        cases this

theorem searchLoop_unroll (lim target s d : Nat)
    (hiff : ∀ t, (mfind (iterateSearch lim s t).1 target).isSome ↔ d ≤ t) (hd31 : d ≤ 31) :
    ∀ fuel j, j + fuel = 31 → j < d →
      searchLoop lim target fuel (iterateSearch lim s j) = (iterateSearch lim s d).1 := by
  intro fuel
  induction fuel with
  | zero =>
    intro j hj hjd
    omega
  | succ fuel ih =>
    intro j hj hjd
    show searchLoop lim target (fuel + 1) (iterateSearch lim s j) = _
    rw [searchLoop]
    have hst : stepSearch lim (iterateSearch lim s j) = iterateSearch lim s (j + 1) := rfl
    rw [hst]
    by_cases hfound : (mfind (iterateSearch lim s (j + 1)).1 target).isSome
    · rw [if_pos hfound]
      have h1 : d ≤ j + 1 := (hiff (j + 1)).mp hfound
      have h2 : j + 1 = d := by omega
      rw [h2]
    · rw [if_neg hfound]
      exact ih (j + 1) (by omega) (by
        rcases Nat.lt_or_ge (j + 1) d with h | h
        · exact h
        · exact absurd ((hiff (j + 1)).mpr h) hfound)

theorem searchMap_eq (lim target s d : Nat)
    (hiff : ∀ t, (mfind (iterateSearch lim s t).1 target).isSome ↔ d ≤ t)
    (hd31 : d ≤ 31) (hd1 : 1 ≤ d) :
    searchMap s target lim = (iterateSearch lim s d).1 :=
  searchLoop_unroll lim target s d hiff hd31 31 0 (by omega) (by omega)

theorem reconstructGo_length (lim s : Nat) (M : List (Nat × Nat)) (T : Nat)
    (hA : ∀ y, (mfind M y).isSome ↔ ∃ k, k ≤ T ∧ ReachN lim k s y)
    (hC : ∀ x p, mfind M x = some p → (x = s ∧ p = s) ∨
      ∃ j, j + 1 ≤ T ∧ EdgeStep lim p x ∧
        (ReachN lim j s p ∧ ∀ i, i < j → ¬ ReachN lim i s p) ∧
        (ReachN lim (j + 1) s x ∧ ∀ i, i < j + 1 → ¬ ReachN lim i s x)) :
    ∀ fuel d x acc, ReachN lim d s x → (∀ i, i < d → ¬ ReachN lim i s x) →
      1 ≤ d → d ≤ fuel → d ≤ T →
      (reconstructGo M s fuel x acc).length = acc.length + d := by
  intro fuel
  induction fuel with
  | zero =>
    intro d x acc _ _ h1 h2 _
    omega
  | succ fuel ih =>
    intro d x acc hr hm h1 h2 hT
    have hin : (mfind M x).isSome := (hA x).mpr ⟨d, hT, hr⟩
    obtain ⟨p, hp⟩ := Option.isSome_iff_exists.mp hin
    show (reconstructGo M s (fuel + 1) x acc).length = _
    rw [reconstructGo]
    rw [hp]
    show (if p = s then acc ++ [p] else reconstructGo M s fuel p (acc ++ [p])).length
      = acc.length + d
    rcases hC x p hp with ⟨hxs, hps⟩ | ⟨j, hjT, hedge, ⟨hrp, hmp⟩, ⟨hrx, hmx⟩⟩
    · subst hxs
      exact absurd (ReachN.refl _) (hm 0 (by omega))
    · have hjd : j + 1 = d := minD_unique hrx hmx hr hm
      by_cases hps : p = s
      · rw [if_pos hps]
        have hj0 : j = 0 := by
          subst hps
          exact minD_unique hrp hmp (ReachN.refl _) (fun i hi => absurd hi (by omega))
        rw [List.length_append]
        simp
        omega
      · rw [if_neg hps]
        have hj1 : 1 ≤ j := by
          rcases Nat.eq_zero_or_pos j with h | h
          · subst h
            exact absurd (reachN_zero.mp hrp) hps
          · exact h
        have := ih j p (acc ++ [p]) hrp hmp hj1 (by omega) (by omega)
        rw [this, List.length_append]
        simp
        omega

/-- C1: the reconstruction loop of `print_path`, run when the visited map
does not contain the target (exactly the state after the depth bound is
exhausted without discovering the target), still returns the one-element
word sequence `[target]`; `print_path` then logs it in the same
`"{len} {path}"` format as a found path, so no distinguishable "no path
found" indication exists. -/
theorem c1_missing_target_reconstructs_path {m : List (Nat × Nat)} {starter target fuel : Nat}
    (h : mfind m target = none) :
    reconstruct m starter target fuel = [target] := by
  unfold reconstruct
  cases fuel with
  | zero => rfl
  | succ fuel =>
    show (reconstructGo m starter (fuel + 1) target [target]).reverse = [target]
    rw [reconstructGo]
    rw [h]
    rfl

/-- Witness for C1 on a concrete visited map that lacks the target. -/
theorem c1_witness :
    mfind [(1, 1)] 2 = none ∧ reconstruct [(1, 1)] 1 2 32 = [2] :=
  ⟨by decide, c1_missing_target_reconstructs_path (by decide)⟩

/-- C2: at the input start = target = "a" the program's logged result is
the two-element path ["a", "a"] with reported length 2, produced after one
full expansion iteration — not the one-element path ["a"] at depth 0 that
the claim states. -/
theorem c2_start_eq_target_two_element_path :
    print_path ['a'] ['a'] = some (2, [['a'], ['a']]) := by decide

/-- C3 counterexample: with start = target = "a" the target is in the
visited map already at depth 0 (the seed insertion), yet the logged path
is ["a", "a"] — one operator application, not zero — so "reconstructed
path length equals first-insertion depth" fails on the code. -/
theorem c3_counterexample :
    (mfind (iterateSearch 1 (fromLetters [1]) 0).1 (fromLetters [1])).isSome ∧
    print_path ['a'] ['a'] = some (2, [['a'], ['a']]) := by
  constructor
  · decide
  · decide

/-- C3 (amended): for a valid start word and a valid target word distinct
from it that is reachable within the 31-iteration depth bound under the
configured length cap, there is a minimal operator distance d ≥ 1 such
that: no shorter operator sequence reaches the target, the BFS first
inserts the target into the visited map exactly at iteration d, and
`print_path` logs a path of d + 1 words, i.e. d operator applications. -/
theorem c3_bfs_minimality {left right : List Char} {k : Nat}
    (hneL : left ≠ []) (hlenL : left.length ≤ 12)
    (hlcL : ∀ c ∈ left, 'a' ≤ c ∧ c ≤ 'z')
    (hneR : right ≠ []) (hlenR : right.length ≤ 12)
    (hlcR : ∀ c ∈ right, 'a' ≤ c ∧ c ≤ 'z')
    (hne : fromLetters (right.map Word.charVal) ≠ fromLetters (left.map Word.charVal))
    (hreach : ReachN (max left.length right.length) k
      (fromLetters (left.map Word.charVal)) (fromLetters (right.map Word.charVal)))
    (hk : k ≤ 31) :
    ∃ d path, 1 ≤ d ∧ d ≤ k ∧
      ReachN (max left.length right.length) d
        (fromLetters (left.map Word.charVal)) (fromLetters (right.map Word.charVal)) ∧
      (∀ j, ReachN (max left.length right.length) j
        (fromLetters (left.map Word.charVal)) (fromLetters (right.map Word.charVal)) →
        d ≤ j) ∧
      (∀ t, (mfind (iterateSearch (max left.length right.length)
          (fromLetters (left.map Word.charVal)) t).1
          (fromLetters (right.map Word.charVal))).isSome ↔ d ≤ t) ∧
      print_path left right = some (d + 1, path) ∧
      path.length = d + 1 := by
  set lim := max left.length right.length with hlim
  set s := fromLetters (left.map Word.charVal) with hs
  set t := fromLetters (right.map Word.charVal) with ht
  obtain ⟨d, hrd, hmd⟩ := exists_minD ⟨k, hreach⟩
  have hdk : d ≤ k := by
    by_contra h
    exact hmd k (by omega) hreach
  have hd1 : 1 ≤ d := by
    rcases Nat.eq_zero_or_pos d with h | h
    · subst h
      exact absurd (reachN_zero.mp hrd) hne
    · exact h
  have hmin : ∀ j, ReachN lim j s t → d ≤ j := by
    intro j hj
    by_contra h
    exact hmd j (by omega) hj
  have hiff : ∀ tt, (mfind (iterateSearch lim s tt).1 t).isSome ↔ d ≤ tt := by
    intro tt
    rw [(iterate_inv lim s tt).1 t]
    constructor
    · rintro ⟨k2, hk2, hr2⟩
      exact le_trans (hmin k2 hr2) hk2
    · intro h
      exact ⟨d, h, hrd⟩
  have hM : searchMap s t lim = (iterateSearch lim s d).1 :=
    searchMap_eq lim t s d hiff (by omega) hd1
  have hRlen : (reconstruct (iterateSearch lim s d).1 s t 32).length = d + 1 := by
    unfold reconstruct
    rw [List.length_reverse]
    have := reconstructGo_length lim s (iterateSearch lim s d).1 d
      (iterate_inv lim s d).1 (iterate_inv lim s d).2.2
      32 d t [t] hrd hmd hd1 (by omega) (le_refl d)
    simp at this
    omega
  refine ⟨d, (reconstruct (iterateSearch lim s d).1 s t 32).map Word.decode,
    hd1, hdk, hrd, hmin, hiff, ?_, ?_⟩
  · simp only [print_path, new_spec hneL hlenL hlcL, new_spec hneR hlenR hlcR,
      ← hs, ← ht, ← hlim]
    rw [hM, hRlen]
  · rw [List.length_map, hRlen]

/-- Witness for C3 at start "a", target "b" (distance 1). -/
theorem c3_witness :
    ∃ d path, 1 ≤ d ∧ d ≤ 1 ∧
      ReachN (max (List.length ['a']) (List.length ['b'])) d
        (fromLetters (['a'].map Word.charVal)) (fromLetters (['b'].map Word.charVal)) ∧
      (∀ j, ReachN (max (List.length ['a']) (List.length ['b'])) j
        (fromLetters (['a'].map Word.charVal)) (fromLetters (['b'].map Word.charVal)) →
        d ≤ j) ∧
      (∀ t, (mfind (iterateSearch (max (List.length ['a']) (List.length ['b']))
          (fromLetters (['a'].map Word.charVal)) t).1
          (fromLetters (['b'].map Word.charVal))).isSome ↔ d ≤ t) ∧
      print_path ['a'] ['b'] = some (d + 1, path) ∧
      path.length = d + 1 :=
  c3_bfs_minimality (by decide) (by decide) (by decide) (by decide) (by decide)
    (by decide) (by decide) (ReachN.step (ReachN.refl _) (by decide)) (by decide)
